import Mathlib

/-!
Shallow embedding of the n-gram language model from
`src/assignments/assignment_3/src/core/ngram.py` (class `NgramModel`),
together with the relevant configuration constant from
`src/assignments/assignment_3/src/config/settings.py`.

Modelling conventions:
* Python `dict` / `Counter` objects are embedded as insertion-ordered
  association lists (`List (key × value)`); `dict` membership is
  association-list lookup.
* Python `set` objects (the vocabulary) are embedded as duplicate-free
  insertion-ordered lists.
* Python `float` probabilities are embedded as exact rationals `ℚ`
  (in particular `settings.BACKOFF_ALPHA = 0.1` becomes `1/10`).
* Python tuples that flow through `str(...)` / `eval(...)` during
  persistence are embedded as the inductive `PyVal` below, so that the
  exact shape of deserialized keys (including nesting) is preserved.
* The random sources (`random.choice`, `random.choices`) are abstracted
  as explicit streams passed to `generate`; `p ** (1.0 / temperature)`
  (real exponentiation, not representable in `ℚ`) is abstracted as an
  explicit function argument `tempPow`.
-/

/- The arithmetic on `ℚ` in the standard library is `@[irreducible]`; we
restore the default reducibility so that concrete distributions can be
evaluated by `decide`. -/
attribute [local semireducible] Rat.add Rat.mul Rat.sub Rat.inv Rat.ofScientific

/-- Association-list lookup; embeds Python `dict` indexing / `in`. -/
def alookup {α β : Type} [DecidableEq α] : List (α × β) → α → Option β
  | [], _ => none
  | (k, v) :: rest, a => if a = k then some v else alookup rest a

/-- Add `c` to the count stored at key `k`, appending a fresh entry when the
key is absent; embeds `Counter` / `defaultdict(int)` accumulation, which
preserves insertion order. -/
def addCount {α : Type} [DecidableEq α] : List (α × Nat) → α → Nat → List (α × Nat)
  | [], k, c => [(k, c)]
  | (k', v) :: rest, k, c =>
    if k = k' then (k', v + c) :: rest else (k', v) :: addCount rest k c

/-- Overwrite the count stored at key `k` (appending when absent); embeds
Python dictionary assignment `d[k] = c`. -/
def setCount {α : Type} [DecidableEq α] : List (α × Nat) → α → Nat → List (α × Nat)
  | [], k, c => [(k, c)]
  | (k', v) :: rest, k, c =>
    if k = k' then (k', c) :: rest else (k', v) :: setCount rest k c

/-- Python values occurring as n-gram-counter keys: strings and tuples
(tuples encoded as cons lists).  This is the codomain of the
`str(...)`-then-`eval(...)` round trip used by `save` / `load`. -/
inductive PyVal : Type where
  | str (s : String)
  | tupNil
  | tupCons (head tail : PyVal)
deriving DecidableEq, Repr

/-- The Python tuple of strings `(t₁, ..., tₙ)` as a `PyVal`. -/
def pyTuple (ts : List String) : PyVal :=
  ts.foldr (fun s acc => PyVal.tupCons (PyVal.str s) acc) PyVal.tupNil

/-- Partial inverse of `pyTuple`: recover a tuple of strings. -/
def pyUnTuple : PyVal → Option (List String)
  | PyVal.tupNil => some []
  | PyVal.tupCons (PyVal.str s) t =>
    match pyUnTuple t with
    | some r => some (s :: r)
    | none => none
  | _ => none

/-- Add a token to the vocabulary set (embedding `set.update`: no
duplicates, insertion order retained for iteration). -/
def vocabAdd (v : List String) (t : String) : List String :=
  if t ∈ v then v else v ++ [t]

/-- All contiguous windows of length `n` of a token list; embeds
`nltk.ngrams(tokens, n)` (no padding: a document shorter than `n`
contributes no windows). -/
def slidingWindows (n : Nat) (tokens : List String) : List (List String) :=
  (List.range (tokens.length + 1 - n)).map (fun i => (tokens.drop i).take n)

/-- The state of `NgramModel`: `name`, `n_gram_size`, `use_smoothing`,
`use_stupid_backoff`, `ngram_counter` (raw n-gram counts, keys are Python
tuples), `model` (conditional counts: history ↦ continuation ↦ count),
`vocab`, and the `backoff_models` chain. -/
inductive NgramModel : Type where
  | mk
    (name : String)
    (n_gram_size : Nat)
    (use_smoothing : Bool)
    (use_stupid_backoff : Bool)
    (ngram_counter : List (PyVal × Nat))
    (model : List (List String × List (String × Nat)))
    (vocab : List String)
    (backoff_models : List NgramModel)

def NgramModel.name : NgramModel → String
  | .mk x _ _ _ _ _ _ _ => x

def NgramModel.n_gram_size : NgramModel → Nat
  | .mk _ x _ _ _ _ _ _ => x

def NgramModel.use_smoothing : NgramModel → Bool
  | .mk _ _ x _ _ _ _ _ => x

def NgramModel.use_stupid_backoff : NgramModel → Bool
  | .mk _ _ _ x _ _ _ _ => x

def NgramModel.ngram_counter : NgramModel → List (PyVal × Nat)
  | .mk _ _ _ _ x _ _ _ => x

def NgramModel.model : NgramModel → List (List String × List (String × Nat))
  | .mk _ _ _ _ _ x _ _ => x

def NgramModel.vocab : NgramModel → List String
  | .mk _ _ _ _ _ _ x _ => x

def NgramModel.backoff_models : NgramModel → List NgramModel
  | .mk _ _ _ _ _ _ _ x => x

/-- An arbitrary placeholder model (used only to totalize partial reads). -/
def defaultModel : NgramModel := .mk "" 0 false false [] [] [] []

instance : Inhabited NgramModel := ⟨defaultModel⟩

/-- `settings.BACKOFF_ALPHA` (the source configures `0.1`). -/
def BACKOFF_ALPHA : ℚ := 1 / 10

/-- First training pass, vocabulary part: `self.vocab.update(tokens)`
over all documents. -/
def trainVocab (corpus : List (List String)) : List String :=
  corpus.foldl (fun v doc => doc.foldl vocabAdd v) []

/-- First training pass, counting part:
`self.ngram_counter.update(ngrams(tokens, n))` over all documents. -/
def trainCounter (n : Nat) (corpus : List (List String)) : List (PyVal × Nat) :=
  corpus.foldl
    (fun c doc => (slidingWindows n doc).foldl (fun c w => addCount c (pyTuple w) 1) c) []

/-- Add `c` to `model[history][continuation]`
(`self.model[history][continuation] += count`). -/
def addToModel (md : List (List String × List (String × Nat)))
    (h : List String) (w : String) (c : Nat) :
    List (List String × List (String × Nat)) :=
  match md with
  | [] => [(h, [(w, c)])]
  | (h', cs) :: rest =>
    if h = h' then (h', addCount cs w c) :: rest else (h', cs) :: addToModel rest h w c

/-- One iteration of the second training pass
(`history, continuation = ngram[:-1], ngram[-1]` followed by
`self.model[history][continuation] += count`).  In the source every
counter key is a nonempty tuple of tokens; keys of any other shape are
skipped. -/
def buildStep (md : List (List String × List (String × Nat))) (e : PyVal × Nat) :
    List (List String × List (String × Nat)) :=
  match pyUnTuple e.1 with
  | some g =>
    match g.getLast? with
    | some w => addToModel md g.dropLast w e.2
    | none => md
  | none => md

/-- Second training pass: derive the conditional counts from the n-gram
counter. -/
def buildModel (counter : List (PyVal × Nat)) :
    List (List String × List (String × Nat)) :=
  counter.foldl buildStep []

/-- Train a single model, without constructing a backoff chain.  This is
exactly what `NgramModel.train` does for a model whose
`use_stupid_backoff` is `false` (as every chain member is constructed). -/
def trainOne (name : String) (n : Nat) (sm bo : Bool)
    (corpus : List (List String)) : NgramModel :=
  let counter := trainCounter n corpus
  .mk name n sm bo counter (buildModel counter) (trainVocab corpus) []

/-- `NgramModel.train` on an already-tokenized corpus: the two counting
passes, then (when `use_stupid_backoff` and `n > 1`) a chain of
lower-order models of orders `n-1, ..., 1`, each trained on the same
corpus with `use_stupid_backoff = False`. -/
def train (name : String) (n : Nat) (sm bo : Bool)
    (corpus : List (List String)) : NgramModel :=
  let counter := trainCounter n corpus
  let chain :=
    if bo && decide (1 < n) then
      ((List.range (n - 1)).reverse.map (· + 1)).map
        (fun k => trainOne (name ++ "-" ++ toString k ++ "gram") k sm false corpus)
    else []
  .mk name n sm bo counter (buildModel counter) (trainVocab corpus) chain

/-- Count of `word` in a conditional-count table (`counts.get(word, 0)`). -/
def countOf (counts : List (String × Nat)) (w : String) : Nat :=
  (alookup counts w).getD 0

/-- `sum(counts.values())`. -/
def totalCount (counts : List (String × Nat)) : Nat :=
  (counts.map Prod.snd).sum

/-- `NgramModel.conditional_probability_distribution`: `p(w | history)`
with optional smoothing and stupid backoff, as an insertion-ordered
association list from word to probability. -/
def conditional_probability_distribution : NgramModel → List String → List (String × ℚ)
  | .mk _ _ sm bo _ md vocab bms, history =>
    match alookup md history with
    | none =>
      match bms, bo with
      | b :: _, true =>
        -- shorter_hist = history[1:] if len(history) > 0 else tuple()
        (conditional_probability_distribution b (history.drop 1)).map
          (fun e => (e.1, e.2 * BACKOFF_ALPHA))
      | _, _ =>
        -- uniform fallback: prob = 1.0 / len(vocab)
        vocab.map (fun w => (w, 1 / (vocab.length : ℚ)))
    | some counts =>
      if sm then
        vocab.map (fun w =>
          (w, ((countOf counts w : ℚ) + 1) / ((totalCount counts : ℚ) + vocab.length)))
      else
        counts.map (fun e => (e.1, (e.2 : ℚ) / (totalCount counts : ℚ)))

/-- Total probability mass of a distribution. -/
def sumDist (d : List (String × ℚ)) : ℚ :=
  (d.map Prod.snd).sum

/-! ## Generation (`NgramModel.generate`) -/

/-- The errors `generate` can raise: the three `ValueError` precondition
checks, in source order, and the `IndexError` that `random.choice` raises
on an empty sequence. -/
inductive GenError : Type where
  | emptyModel
  | conflict
  | invalidTemp
  | indexError
deriving DecidableEq, Repr

/-- Python truthiness of an optional integer (`if top_k:`). -/
def truthyNat : Option Nat → Bool
  | none => false
  | some k => k ≠ 0

/-- Python truthiness of an optional float (`if top_p:`). -/
def truthyQ : Option ℚ → Bool
  | none => false
  | some p => p ≠ 0

/-- The Python slice `generated[-(n - 1):]` where `n` is the model order:
the literal index is the integer `-(n - 1)`, so for `n = 1` the slice is
`generated[0:]` (the whole list), and for `n ≥ 2` it is the last `n - 1`
elements (all of them when fewer have accumulated). -/
def historyOf (n : Nat) (generated : List String) : List String :=
  if n - 1 = 0 then generated else generated.drop (generated.length - (n - 1))

/-- Stable insertion into a list sorted by probability in descending
order (earlier elements stay in front of later equal-probability ones,
as Python's stable `sorted` does). -/
def insertDesc (x : String × ℚ) : List (String × ℚ) → List (String × ℚ)
  | [] => [x]
  | y :: ys => if y.2 ≤ x.2 then x :: y :: ys else y :: insertDesc x ys

/-- `sorted(dist.items(), key=lambda x: x[1], reverse=True)`. -/
def sortDesc (l : List (String × ℚ)) : List (String × ℚ) :=
  l.foldr insertDesc []

/-- Nucleus cut: keep candidates up to and including the first whose
cumulative probability exceeds the threshold (the source's running
`cumsum` is carried here as the remaining budget `p`); when the total
never exceeds the threshold, everything is kept. -/
def nucleusCut : List (String × ℚ) → ℚ → List (String × ℚ)
  | [], _ => []
  | x :: rest, p => if p < x.2 then [x] else x :: nucleusCut rest (p - x.2)

/-- `random.choices(words, weights=probs)[0]`: walk the cumulative
weights with the random draw `r`; a single candidate is returned
unconditionally (its weight interval is the whole range). -/
def weightedPick : List String → List ℚ → ℚ → String
  | [], _, _ => ""
  | [w], _, _ => w
  | w :: _ :: _, [], _ => w
  | w :: ws, p :: ps, r => if r < p then w else weightedPick ws ps (r - p)

/-- One iteration of the generation loop: slice the history, query the
distribution, apply top-k / top-p / temperature, sample, append.
`tempPow` abstracts `p ** (1.0 / temperature)` (real exponentiation);
`rc i` / `rw i` are the values the uniform and weighted random sources
produce at step `i`. -/
def genStep (m : NgramModel) (top_k : Option Nat) (top_p : Option ℚ)
    (temperature : ℚ) (tempPow : ℚ → ℚ) (rc : Nat → Nat) (rw : Nat → ℚ)
    (i : Nat) (generated : List String) : List String :=
  let history := historyOf m.n_gram_size generated
  let dist := conditional_probability_distribution m history
  let next :=
    if dist.isEmpty then
      m.vocab.getD (rc i % m.vocab.length) ""
    else
      let sorted_items := sortDesc dist
      let sorted_items :=
        if truthyNat top_k then sorted_items.take (top_k.getD 0) else sorted_items
      let sorted_items :=
        if truthyQ top_p then nucleusCut sorted_items (top_p.getD 0) else sorted_items
      let probs := sorted_items.map Prod.snd
      let probs := if temperature ≠ 1 then probs.map tempPow else probs
      let total := probs.sum
      let probs := probs.map (fun p => p / total)
      weightedPick (sorted_items.map Prod.fst) probs (rw i)
  generated ++ [next]

/-- The generation loop: `steps` remaining iterations, `i` the index of
the current iteration (feeding the random streams), `g` the tokens so far. -/
def genTokens (m : NgramModel) (top_k : Option Nat) (top_p : Option ℚ)
    (temperature : ℚ) (tempPow : ℚ → ℚ) (rc : Nat → Nat) (rw : Nat → ℚ) :
    Nat → Nat → List String → List String
  | 0, _, g => g
  | steps + 1, i, g =>
    genTokens m top_k top_p temperature tempPow rc rw steps (i + 1)
      (genStep m top_k top_p temperature tempPow rc rw i g)

/-- `NgramModel.generate`: precondition checks in source order (empty
vocabulary, conflicting sampling strategies via `is not None`,
non-positive temperature), random seed selection from the observed
histories when no seed is given (raising `IndexError` when there are
none), then the generation loop, joined by single spaces. -/
def generate (m : NgramModel) (seed : Option (List String)) (tokens : Nat)
    (top_k : Option Nat) (top_p : Option ℚ) (temperature : ℚ)
    (tempPow : ℚ → ℚ) (rc : Nat → Nat) (rw : Nat → ℚ) :
    Except GenError String :=
  if m.vocab.isEmpty then .error .emptyModel
  else if top_k.isSome && top_p.isSome then .error .conflict
  else if temperature ≤ 0 then .error .invalidTemp
  else
    match seed with
    | some s =>
      .ok (String.intercalate " "
        (genTokens m top_k top_p temperature tempPow rc rw tokens 0 s))
    | none =>
      let keys := m.model.map Prod.fst
      if keys.isEmpty then .error .indexError
      else
        .ok (String.intercalate " "
          (genTokens m top_k top_p temperature tempPow rc rw tokens 0
            (keys.getD (rc 0 % keys.length) [])))

/-! ## Persistence (`NgramModel.save` / `NgramModel.load`) -/

/-- The two shapes the `ngram_counts` field of a saved document takes:
for `n_gram_size == 1` a flat map whose keys are the `str(...)` images of
the counter's tuple keys, otherwise a map from stringified history tuples
to continuation counts.  Since `str` followed by `eval` round-trips a
tuple of strings, a serialized key is stored as the `PyVal` it
deserializes back to. -/
inductive SavedCounts : Type where
  | uni (counts : List (PyVal × Nat))
  | multi (counts : List (PyVal × List (String × Nat)))
deriving DecidableEq, Repr

/-- The JSON document written by `save`. -/
structure SavedDoc where
  name : String
  n_gram_size : Nat
  use_smoothing : Bool
  use_stupid_backoff : Bool
  ngram_counts : SavedCounts
  vocab : List String
deriving DecidableEq, Repr

/-- The models directory: file name (stem) to document. -/
abbrev Store := List (String × SavedDoc)

/-- Write (or overwrite) one file. -/
def putFile : Store → String → SavedDoc → Store
  | [], nm, d => [(nm, d)]
  | (nm', d') :: rest, nm, d =>
    if nm = nm' then (nm', d) :: rest else (nm', d') :: putFile rest nm d

/-- The document `save` writes for one model. -/
def saveDoc (m : NgramModel) : SavedDoc :=
  { name := m.name
    n_gram_size := m.n_gram_size
    use_smoothing := m.use_smoothing
    use_stupid_backoff := m.use_stupid_backoff
    ngram_counts :=
      if m.n_gram_size = 1 then SavedCounts.uni m.ngram_counter
      else SavedCounts.multi (m.model.map (fun e => (pyTuple e.1, e.2)))
    vocab := m.vocab }

mutual

/-- `NgramModel.save`: write this model's document under its name, then
recursively save every member of the backoff chain. -/
def save : NgramModel → Store → Store
  | .mk nm n sm bo cnt md vc bms, st =>
    saveList bms (putFile st nm (saveDoc (.mk nm n sm bo cnt md vc bms)))

def saveList : List NgramModel → Store → Store
  | [], st => st
  | b :: rest, st => saveList rest (save b st)

end

inductive LoadError : Type where
  | fileNotFound
deriving DecidableEq, Repr

mutual

/-- `NgramModel.load` with explicit recursion fuel (the source
terminates because every chain lookup that misses raises
`FileNotFoundError`; the fuel only bounds that recursion depth and any
sufficiently large value gives the source behavior).  For
`n_gram_size == 1` the counter key is rebuilt as `tuple([eval(k)])` —
wrapping the deserialized tuple in another tuple — and the conditional
counts are not rebuilt at all; for larger orders both structures are
rebuilt from the persisted continuation maps. -/
def loadFuel : Nat → String → Store → Except LoadError NgramModel
  | 0, _, _ => .error .fileNotFound
  | fuel + 1, model_name, st =>
    match alookup st model_name with
    | none => .error .fileNotFound
    | some doc =>
      let pair : List (PyVal × Nat) × List (List String × List (String × Nat)) :=
        if doc.n_gram_size = 1 then
          (match doc.ngram_counts with
           | SavedCounts.uni l => l.map (fun e => (PyVal.tupCons e.1 PyVal.tupNil, e.2))
           | SavedCounts.multi _ => [],
           [])
        else
          match doc.ngram_counts with
          | SavedCounts.multi l =>
            l.foldl (fun acc e =>
              match pyUnTuple e.1 with
              | some history =>
                (e.2.foldl (fun c wc => setCount c (pyTuple (history ++ [wc.1])) wc.2) acc.1,
                 e.2.foldl (fun md wc => addToModel md history wc.1 wc.2) acc.2)
              | none => acc) ([], [])
          | SavedCounts.uni _ => ([], [])
      let chain :=
        if doc.use_stupid_backoff then
          chainFuel fuel model_name st (doc.n_gram_size - 1)
        else []
      .ok (.mk doc.name doc.n_gram_size doc.use_smoothing doc.use_stupid_backoff
            pair.1 pair.2 doc.vocab chain)

/-- Load backoff models of orders `k, k-1, ..., 1`, stopping at the
first missing file. -/
def chainFuel : Nat → String → Store → Nat → List NgramModel
  | 0, _, _, _ => []
  | _ + 1, _, _, 0 => []
  | fuel + 1, model_name, st, k + 1 =>
    match loadFuel fuel (model_name ++ "-" ++ toString (k + 1) ++ "gram") st with
    | .ok b => b :: chainFuel fuel model_name st (k + 1 - 1)
    | .error _ => []

end

/-- `NgramModel.load`: enough fuel for any store written by `save`. -/
def load (model_name : String) (st : Store) : Except LoadError NgramModel :=
  loadFuel (2 * st.length + 2) model_name st

/-- Totalize a load result (used only to state concrete evaluations). -/
def loadedOrDefault (r : Except LoadError NgramModel) : NgramModel :=
  match r with
  | .ok m => m
  | .error _ => defaultModel

instance {ε α : Type} [DecidableEq ε] [DecidableEq α] : DecidableEq (Except ε α) :=
  fun x y =>
    match x, y with
    | .ok a, .ok b =>
      if h : a = b then isTrue (by rw [h]) else isFalse (by intro he; cases he; exact h rfl)
    | .error a, .error b =>
      if h : a = b then isTrue (by rw [h]) else isFalse (by intro he; cases he; exact h rfl)
    | .ok _, .error _ => isFalse (by intro he; cases he)
    | .error _, .ok _ => isFalse (by intro he; cases he)

/-! ## Derived definitions used to state the claims -/

/-- The spec's fixed two-document corpus, whitespace-tokenized. -/
def corpusTwoDocs : List (List String) := [["the", "cat", "sat"], ["the", "dog", "sat"]]

/-- The same model with the backoff chain truncated to its first
element (stated by the refinement claim about unused chain members). -/
def truncChain : NgramModel → NgramModel
  | .mk nm n sm bo cnt md vc bms => .mk nm n sm bo cnt md vc (bms.take 1)

/-- The first candidate after the descending sort (the one `top_k = 1`
retains). -/
def topCandidate (d : List (String × ℚ)) : String × ℚ :=
  (sortDesc d).headD ("", 0)

/-- The token a `top_k = 1` sampling step emits for the current
generated prefix. -/
def greedyNext (m : NgramModel) (g : List String) : String :=
  (topCandidate (conditional_probability_distribution m (historyOf m.n_gram_size g))).1

/-- `steps` iterations of the `top_k = 1` generation loop. -/
def greedySeq (m : NgramModel) : Nat → List String → List String
  | 0, g => g
  | steps + 1, g => greedySeq m steps (g ++ [greedyNext m g])

/-- `conditionalCounts[h][w]` with `defaultdict`/`Counter` semantics
(absent entries read as 0). -/
def modelCount (md : List (List String × List (String × Nat)))
    (h : List String) (w : String) : Nat :=
  countOf ((alookup md h).getD []) w

/-- `sum(conditionalCounts[h].values())` (0 when `h` is absent). -/
def historyTotal (md : List (List String × List (String × Nat)))
    (h : List String) : Nat :=
  totalCount ((alookup md h).getD [])

/-- Every training n-gram window of the corpus, in order. -/
def allWindows (n : Nat) (corpus : List (List String)) : List (List String) :=
  (corpus.map (slidingWindows n)).flatten

/-- The number of training n-gram windows whose history (the window
minus its last token) is `h`. -/
def historyWindowCount (n : Nat) (corpus : List (List String)) (h : List String) : Nat :=
  ((allWindows n corpus).filter (fun w => w.dropLast == h)).length

/-- Whether a counter key is a nonempty tuple of tokens whose history
part is `h` (the keys `buildModel` folds into the entry for `h`). -/
def histKey (h : List String) (k : PyVal) : Bool :=
  match pyUnTuple k with
  | some g =>
    match g.getLast? with
    | some _ => decide (g.dropLast = h)
    | none => false
  | none => false

/-- Sum of the counts stored under keys satisfying `P`. -/
def filteredSum (es : List (PyVal × Nat)) (P : PyVal → Bool) : Nat :=
  ((es.filter (fun e => P e.1)).map Prod.snd).sum

/-! ## General lemmas -/

theorem alookup_map_snd {α β γ : Type} [DecidableEq α] (l : List (α × β)) (f : β → γ)
    (a : α) :
    alookup (l.map (fun e => (e.1, f e.2))) a = (alookup l a).map f := by
  induction l with
  | nil => rfl
  | cons x rest ih => by_cases hx : a = x.1 <;> simp [alookup, hx, ih]

/-! ## Claim theorems -/

/-- C2: training a bigram model (order 2, smoothing on, backoff off) on the
whitespace-tokenized corpus `["the cat sat", "the dog sat"]` yields the
vocabulary `{the, cat, sat, dog}`, and the distribution for the history
`("the",)` assigns `p(cat) = p(dog) = 2/6` and `p(sat) = p(the) = 1/6`. -/
theorem C2_bigram_scenario :
    (∀ w, w ∈ (train "bi" 2 true false corpusTwoDocs).vocab ↔
      w ∈ ["the", "cat", "sat", "dog"])
    ∧ alookup (conditional_probability_distribution
        (train "bi" 2 true false corpusTwoDocs) ["the"]) "cat" = some (2 / 6)
    ∧ alookup (conditional_probability_distribution
        (train "bi" 2 true false corpusTwoDocs) ["the"]) "dog" = some (2 / 6)
    ∧ alookup (conditional_probability_distribution
        (train "bi" 2 true false corpusTwoDocs) ["the"]) "sat" = some (1 / 6)
    ∧ alookup (conditional_probability_distribution
        (train "bi" 2 true false corpusTwoDocs) ["the"]) "the" = some (1 / 6) := by
  refine ⟨fun w => ?_, by decide, by decide, by decide, by decide⟩
  rw [show (train "bi" 2 true false corpusTwoDocs).vocab = ["the", "cat", "sat", "dog"]
    from by decide]

/-- C9: a model trained on documents each shorter than its order satisfies
every stated precondition of `generate` (nonempty vocabulary, at most one
sampling strategy, positive temperature), yet its conditional-count table is
empty, so `generate` with `seed = None` hits `random.choice` on the empty
list of observed histories and fails with an `IndexError`, whatever the
random sources produce. -/
theorem C9_seedless_generation_indexerror :
    (train "tiny" 3 true true [["hi"]]).vocab ≠ []
    ∧ (train "tiny" 3 true true [["hi"]]).model = []
    ∧ ∀ (tempPow : ℚ → ℚ) (rc : Nat → Nat) (rw : Nat → ℚ),
        generate (train "tiny" 3 true true [["hi"]]) none 5 none none 1 tempPow rc rw =
          Except.error GenError.indexError := by
  refine ⟨by decide, by decide, fun tempPow rc rw => ?_⟩
  rfl

/-- C3: the history used by the generation loop is the Python slice
`generated[-(order - 1):]`; for a unigram model the slice index is `-0 = 0`,
so the history is the entire generated sequence — not the empty tuple the
claim states (shown nonempty on the one-token failing input). -/
theorem C3_unigram_history_slice :
    (∀ g : List String, historyOf 1 g = g)
    ∧ historyOf 1 ["the"] ≠ ([] : List String) :=
  ⟨fun _ => rfl, by decide⟩

/-- C1: evaluating save-then-load of the order-3 backoff model trained on
the fixed two-document corpus: the unigram chain member comes back with an
empty conditional-count table (the original's is nonempty) and with its
counter keyed by doubly-wrapped tuples (`tuple([eval(k)])`), so the
round trip does not reproduce `ngramCounts` and `conditionalCounts` at
every chain level. -/
theorem C1_roundtrip_divergence :
    ((train "tri" 3 true true corpusTwoDocs).backoff_models.getD 1 defaultModel).model ≠ []
    ∧ ((loadedOrDefault (load "tri" (save (train "tri" 3 true true corpusTwoDocs) [])))
        |>.backoff_models.getD 1 defaultModel).model = []
    ∧ alookup ((train "tri" 3 true true corpusTwoDocs).backoff_models.getD 1
        defaultModel).ngram_counter (pyTuple ["the"]) = some 2
    ∧ alookup ((loadedOrDefault (load "tri" (save (train "tri" 3 true true corpusTwoDocs) [])))
        |>.backoff_models.getD 1 defaultModel).ngram_counter (pyTuple ["the"]) = none
    ∧ alookup ((loadedOrDefault (load "tri" (save (train "tri" 3 true true corpusTwoDocs) [])))
        |>.backoff_models.getD 1 defaultModel).ngram_counter
        (PyVal.tupCons (pyTuple ["the"]) PyVal.tupNil) = some 2 :=
  ⟨by decide, by decide, by decide, by decide, by decide⟩

/-- C5: for every model with backoff enabled, a nonempty chain, and a
history absent from the conditional counts, the returned distribution is
the first chain member's distribution on the history with its oldest token
dropped, entrywise multiplied by the constant `BACKOFF_ALPHA < 1`. -/
theorem C5_backoff_scaling (m : NgramModel) (h : List String) (b : NgramModel)
    (rest : List NgramModel) (hbo : m.use_stupid_backoff = true)
    (hchain : m.backoff_models = b :: rest) (hmiss : alookup m.model h = none) :
    conditional_probability_distribution m h =
      (conditional_probability_distribution b (h.drop 1)).map
        (fun e => (e.1, e.2 * BACKOFF_ALPHA))
    ∧ (∀ w, alookup (conditional_probability_distribution m h) w =
        (alookup (conditional_probability_distribution b (h.drop 1)) w).map
          (fun p => p * BACKOFF_ALPHA))
    ∧ BACKOFF_ALPHA < 1 := by
  cases m with
  | mk nm n sm bo cnt md vc bms =>
    simp only [NgramModel.use_stupid_backoff] at hbo
    simp only [NgramModel.backoff_models] at hchain
    simp only [NgramModel.model] at hmiss
    subst hbo
    subst hchain
    have hmain : conditional_probability_distribution (.mk nm n sm true cnt md vc (b :: rest)) h =
        (conditional_probability_distribution b (h.drop 1)).map
          (fun e => (e.1, e.2 * BACKOFF_ALPHA)) := by
      simp [conditional_probability_distribution, hmiss]
    refine ⟨hmain, fun w => ?_, by norm_num [BACKOFF_ALPHA]⟩
    rw [hmain]
    exact alookup_map_snd _ (fun p => p * BACKOFF_ALPHA) w

/-- Witness for C5 at the trained trigram model and an unseen history. -/
theorem C5_backoff_scaling_witness :
    (train "tri" 3 true true corpusTwoDocs).use_stupid_backoff = true
    ∧ alookup (train "tri" 3 true true corpusTwoDocs).model ["aa", "bb"] = none
    ∧ (conditional_probability_distribution (train "tri" 3 true true corpusTwoDocs) ["aa", "bb"] =
        (conditional_probability_distribution (trainOne "tri-2gram" 2 true false corpusTwoDocs)
          (["aa", "bb"].drop 1)).map (fun e => (e.1, e.2 * BACKOFF_ALPHA))
      ∧ (∀ w, alookup (conditional_probability_distribution
            (train "tri" 3 true true corpusTwoDocs) ["aa", "bb"]) w =
          (alookup (conditional_probability_distribution
            (trainOne "tri-2gram" 2 true false corpusTwoDocs) (["aa", "bb"].drop 1)) w).map
            (fun p => p * BACKOFF_ALPHA))
      ∧ BACKOFF_ALPHA < 1) :=
  ⟨by decide, by decide,
    C5_backoff_scaling (train "tri" 3 true true corpusTwoDocs) ["aa", "bb"]
      (trainOne "tri-2gram" 2 true false corpusTwoDocs)
      [trainOne "tri-1gram" 1 true false corpusTwoDocs] (by decide) rfl (by decide)⟩

/-- C6 counterexample: with `topK = 0` (non-null but zero, hence not "set"
in the claim's sense of non-null and non-zero) and `topP = 1/2`, at most
one parameter is set, yet the call raises the conflict error, because the
source tests `is not None` rather than truthiness. -/
theorem C6_counterexample :
    truthyNat (some 0) = false
    ∧ generate (train "bi" 2 true false corpusTwoDocs) (some ["the"]) 1 (some 0)
        (some (1 / 2)) 1 id (fun _ => 0) (fun _ => 0) = Except.error GenError.conflict :=
  ⟨rfl, by decide⟩

/-- C6 (amended): given a nonempty vocabulary, `generate` raises the
conflicting-sampling-strategy error — returning it before any token is
generated — exactly when both `topK` and `topP` are non-null; a zero value
still counts as present for this check. -/
theorem C6_conflict_iff (m : NgramModel) (seed : Option (List String)) (tokens : Nat)
    (top_k : Option Nat) (top_p : Option ℚ) (temperature : ℚ)
    (tempPow : ℚ → ℚ) (rc : Nat → Nat) (rw : Nat → ℚ) (hv : m.vocab ≠ []) :
    generate m seed tokens top_k top_p temperature tempPow rc rw =
        Except.error GenError.conflict
      ↔ (top_k.isSome = true ∧ top_p.isSome = true) := by
  have hve : m.vocab.isEmpty = false := by
    cases hvv : m.vocab with
    | nil => exact absurd hvv hv
    | cons a l => rfl
  unfold generate
  cases hk : top_k.isSome <;> cases hp : top_p.isSome <;>
      simp only [hve, hk, hp, Bool.and_self, Bool.and_false, Bool.false_and, Bool.and_true,
        Bool.true_and, Bool.false_eq_true, if_false, if_true, Bool.true_eq_false] <;>
    try simp
  all_goals
    intro hcon
    split at hcon
    · simp at hcon
    · split at hcon
      · simp at hcon
      · split at hcon <;> simp at hcon

/-- Witness for the amended C6 at a concrete trained model and call. -/
theorem C6_conflict_iff_witness :
    (train "bi" 2 true false corpusTwoDocs).vocab ≠ []
    ∧ (generate (train "bi" 2 true false corpusTwoDocs) (some ["the"]) 1 (some 1)
          (some (1 / 2)) 1 id (fun _ => 0) (fun _ => 0) = Except.error GenError.conflict
        ↔ ((some 1 : Option Nat).isSome = true ∧ (some (1 / 2) : Option ℚ).isSome = true)) :=
  ⟨by decide,
    C6_conflict_iff (train "bi" 2 true false corpusTwoDocs) (some ["the"]) 1 (some 1)
      (some (1 / 2)) 1 id (fun _ => 0) (fun _ => 0) (by decide)⟩

/-- C10: the distribution query only ever consults the first member of the
backoff chain, so truncating the chain to its first element never changes
any query; moreover `train` constructs every chain member with backoff
disabled and an empty chain of its own, so an unseen history falls back at
most one order before the uniform fallback. -/
theorem C10_chain_truncation :
    (∀ (m : NgramModel) (h : List String),
        conditional_probability_distribution (truncChain m) h =
          conditional_probability_distribution m h)
    ∧ (∀ (name : String) (n : Nat) (sm : Bool) (corpus : List (List String)),
        ∀ b ∈ (train name n sm true corpus).backoff_models,
          b.use_stupid_backoff = false ∧ b.backoff_models = []) := by
  constructor
  · intro m h
    cases m with
    | mk nm n sm bo cnt md vc bms =>
      cases bms with
      | nil => rfl
      | cons b rest =>
        show conditional_probability_distribution (.mk nm n sm bo cnt md vc [b]) h = _
        cases bo <;> cases hm : alookup md h <;>
          simp [conditional_probability_distribution, hm]
  · intro name n sm corpus b hb
    simp only [train, NgramModel.backoff_models] at hb
    by_cases hn : 1 < n
    · rw [if_pos (by simp [hn])] at hb
      rw [List.mem_map] at hb
      obtain ⟨k, hk, rfl⟩ := hb
      exact ⟨rfl, rfl⟩
    · rw [if_neg (by simp [hn])] at hb
      exact absurd hb (List.not_mem_nil b)

/-- Witness for C10 at the trained trigram model. -/
theorem C10_chain_truncation_witness :
    conditional_probability_distribution (truncChain (train "tri" 3 true true corpusTwoDocs))
        ["aa", "bb"] =
      conditional_probability_distribution (train "tri" 3 true true corpusTwoDocs) ["aa", "bb"]
    ∧ ((trainOne "tri-2gram" 2 true false corpusTwoDocs).use_stupid_backoff = false
        ∧ (trainOne "tri-2gram" 2 true false corpusTwoDocs).backoff_models = []) :=
  ⟨C10_chain_truncation.1 _ _,
    C10_chain_truncation.2 "tri" 3 true corpusTwoDocs _ (List.Mem.head _)⟩

/-! ## Association-list lemmas -/

theorem alookup_mem {α β : Type} [DecidableEq α] {l : List (α × β)} {a : α} {b : β}
    (hl : alookup l a = some b) : (a, b) ∈ l := by
  induction l with
  | nil => simp [alookup] at hl
  | cons x rest ih =>
    rw [alookup] at hl
    by_cases hx : a = x.1
    · rw [if_pos hx] at hl
      cases hl
      rw [hx]
      exact List.mem_cons_self _ _
    · rw [if_neg hx] at hl
      exact List.mem_cons_of_mem _ (ih hl)

theorem alookup_eq_none {α β : Type} [DecidableEq α] {l : List (α × β)} {a : α}
    (ha : a ∉ l.map Prod.fst) : alookup l a = none := by
  induction l with
  | nil => rfl
  | cons x rest ih =>
    simp only [List.map_cons, List.mem_cons, not_or] at ha
    rw [alookup, if_neg ha.1]
    exact ih ha.2

theorem lookupCount_addCount {α : Type} [DecidableEq α] (l : List (α × Nat)) (k : α)
    (c : Nat) (a : α) :
    (alookup (addCount l k c) a).getD 0 =
      (alookup l a).getD 0 + if a = k then c else 0 := by
  induction l with
  | nil =>
    by_cases ha : a = k <;> simp [addCount, alookup, ha]
  | cons x rest ih =>
    match x with
    | (k', v) =>
      rw [addCount]
      by_cases hk : k = k'
      · subst hk
        by_cases ha : a = k <;> simp [alookup, ha]
      · rw [if_neg hk, alookup, alookup]
        by_cases ha : a = k'
        · rw [if_pos ha, if_pos ha, if_neg (fun hak : a = k => hk (hak ▸ ha))]
          rfl
        · rw [if_neg ha, if_neg ha, ih]

theorem addCount_cons_self {α : Type} [DecidableEq α] (k : α) (v c : Nat)
    (rest : List (α × Nat)) : addCount ((k, v) :: rest) k c = (k, v + c) :: rest := by
  rw [addCount, if_pos rfl]

theorem addCount_cons_ne {α : Type} [DecidableEq α] {k k' : α} (hk : k ≠ k') (v c : Nat)
    (rest : List (α × Nat)) :
    addCount ((k', v) :: rest) k c = (k', v) :: addCount rest k c := by
  rw [addCount, if_neg hk]

theorem keys_addCount {α : Type} [DecidableEq α] (l : List (α × Nat)) (k : α) (c : Nat)
    (x : α) :
    x ∈ (addCount l k c).map Prod.fst ↔ x ∈ l.map Prod.fst ∨ x = k := by
  induction l with
  | nil => simp [addCount]
  | cons e rest ih =>
    match e with
    | (k', v) =>
      by_cases hk : k = k'
      · subst hk
        rw [addCount_cons_self]
        simp only [List.map_cons, List.mem_cons]
        tauto
      · rw [addCount_cons_ne hk]
        simp only [List.map_cons, List.mem_cons, ih]
        tauto

theorem keys_nodup_addCount {α : Type} [DecidableEq α] (l : List (α × Nat)) (k : α)
    (c : Nat) (hnd : (l.map Prod.fst).Nodup) : ((addCount l k c).map Prod.fst).Nodup := by
  induction l with
  | nil => simp [addCount]
  | cons e rest ih =>
    match e with
    | (k', v) =>
      simp only [List.map_cons, List.nodup_cons] at hnd
      by_cases hk : k = k'
      · subst hk
        rw [addCount_cons_self]
        simp only [List.map_cons, List.nodup_cons]
        exact hnd
      · rw [addCount_cons_ne hk]
        simp only [List.map_cons, List.nodup_cons]
        refine ⟨fun hmem => ?_, ih hnd.2⟩
        rw [keys_addCount] at hmem
        rcases hmem with hmem | hmem
        · exact hnd.1 hmem
        · exact hk hmem.symm

theorem values_pos_addCount {α : Type} [DecidableEq α] (l : List (α × Nat)) (k : α)
    (c : Nat) (hc : 0 < c) (hl : ∀ e ∈ l, 0 < e.2) : ∀ e ∈ addCount l k c, 0 < e.2 := by
  induction l with
  | nil =>
    intro e he
    simp only [addCount, List.mem_singleton] at he
    subst he
    exact hc
  | cons x rest ih =>
    match x with
    | (k', v) =>
      intro e he
      by_cases hk : k = k'
      · subst hk
        rw [addCount_cons_self] at he
        rcases List.mem_cons.1 he with he | he
        · subst he
          exact Nat.lt_of_lt_of_le (hl (k, v) (List.mem_cons_self _ _)) (Nat.le_add_right v c)
        · exact hl e (List.mem_cons_of_mem _ he)
      · rw [addCount_cons_ne hk] at he
        rcases List.mem_cons.1 he with he | he
        · subst he
          exact hl (k', v) (List.mem_cons_self _ _)
        · exact ih (fun e he => hl e (List.mem_cons_of_mem _ he)) e he

theorem totalCount_addCount (l : List (String × Nat)) (k : String) (c : Nat) :
    totalCount (addCount l k c) = totalCount l + c := by
  induction l with
  | nil => simp [addCount, totalCount]
  | cons x rest ih =>
    match x with
    | (k', v) =>
      by_cases hk : k = k'
      · subst hk
        rw [addCount_cons_self]
        simp only [totalCount, List.map_cons, List.sum_cons]
        omega
      · rw [addCount_cons_ne hk]
        simp only [totalCount, List.map_cons, List.sum_cons] at ih ⊢
        omega

theorem addCount_ne_nil {α : Type} [DecidableEq α] (l : List (α × Nat)) (k : α) (c : Nat) :
    addCount l k c ≠ [] := by
  cases l with
  | nil => simp [addCount]
  | cons x rest =>
    match x with
    | (k', v) =>
      by_cases hk : k = k'
      · subst hk
        rw [addCount_cons_self]
        simp
      · rw [addCount_cons_ne hk]
        simp

/-! ## Vocabulary lemmas -/

theorem mem_vocabAdd {v : List String} {t x : String} :
    x ∈ vocabAdd v t ↔ x ∈ v ∨ x = t := by
  unfold vocabAdd
  by_cases ht : t ∈ v
  · rw [if_pos ht]
    constructor
    · exact Or.inl
    · rintro (hx | rfl)
      · exact hx
      · exact ht
  · rw [if_neg ht]
    simp

theorem vocabAdd_nodup {v : List String} (t : String) (hv : v.Nodup) :
    (vocabAdd v t).Nodup := by
  unfold vocabAdd
  by_cases ht : t ∈ v
  · rwa [if_pos ht]
  · rw [if_neg ht]
    refine hv.append (List.nodup_singleton t) ?_
    intro a ha hat
    rw [List.mem_singleton] at hat
    subst hat
    exact ht ha

theorem foldl_vocabAdd_nodup (doc : List String) (v : List String) (hv : v.Nodup) :
    (doc.foldl vocabAdd v).Nodup := by
  induction doc generalizing v with
  | nil => exact hv
  | cons t rest ih => exact ih (vocabAdd v t) (vocabAdd_nodup t hv)

theorem mem_foldl_vocabAdd (doc : List String) (v : List String) (x : String) :
    x ∈ doc.foldl vocabAdd v ↔ x ∈ v ∨ x ∈ doc := by
  induction doc generalizing v with
  | nil => simp
  | cons t rest ih =>
    rw [List.foldl_cons, ih]
    rw [mem_vocabAdd]
    simp only [List.mem_cons]
    tauto

theorem trainVocab_nodup (corpus : List (List String)) : (trainVocab corpus).Nodup := by
  unfold trainVocab
  suffices h :
      ∀ (cs : List (List String)) (v : List String), v.Nodup →
        (cs.foldl (fun v doc => doc.foldl vocabAdd v) v).Nodup by
    exact h corpus [] List.nodup_nil
  intro cs
  induction cs with
  | nil => exact fun v hv => hv
  | cons doc rest ih =>
    intro v hv
    exact ih (doc.foldl vocabAdd v) (foldl_vocabAdd_nodup doc v hv)

theorem mem_trainVocab (corpus : List (List String)) (x : String) :
    x ∈ trainVocab corpus ↔ ∃ doc ∈ corpus, x ∈ doc := by
  unfold trainVocab
  suffices h :
      ∀ (cs : List (List String)) (v : List String),
        (x ∈ cs.foldl (fun v doc => doc.foldl vocabAdd v) v ↔ x ∈ v ∨ ∃ doc ∈ cs, x ∈ doc) by
    rw [h corpus []]
    simp
  intro cs
  induction cs with
  | nil => simp
  | cons doc rest ih =>
    intro v
    rw [List.foldl_cons, ih, mem_foldl_vocabAdd]
    simp only [List.mem_cons]
    constructor
    · rintro ((hv | hd) | ⟨d, hd, hx⟩)
      · exact Or.inl hv
      · exact Or.inr ⟨doc, Or.inl rfl, hd⟩
      · exact Or.inr ⟨d, Or.inr hd, hx⟩
    · rintro (hv | ⟨d, (rfl | hd), hx⟩)
      · exact Or.inl (Or.inl hv)
      · exact Or.inl (Or.inr hx)
      · exact Or.inr ⟨d, hd, hx⟩

/-! ## Window lemmas -/

theorem length_of_mem_slidingWindows {n : Nat} {tokens w : List String}
    (hw : w ∈ slidingWindows n tokens) : w.length = n := by
  unfold slidingWindows at hw
  rw [List.mem_map] at hw
  obtain ⟨i, hi, rfl⟩ := hw
  rw [List.mem_range] at hi
  rw [List.length_take, List.length_drop]
  omega

theorem mem_of_mem_slidingWindows {n : Nat} {tokens w : List String}
    (hw : w ∈ slidingWindows n tokens) : ∀ x ∈ w, x ∈ tokens := by
  unfold slidingWindows at hw
  rw [List.mem_map] at hw
  obtain ⟨i, _, rfl⟩ := hw
  intro x hx
  exact List.mem_of_mem_drop (List.mem_of_mem_take hx)

theorem mem_allWindows {n : Nat} {corpus : List (List String)} {w : List String} :
    w ∈ allWindows n corpus ↔ ∃ doc ∈ corpus, w ∈ slidingWindows n doc := by
  unfold allWindows
  rw [List.mem_flatten]
  constructor
  · rintro ⟨l, hl, hw⟩
    rw [List.mem_map] at hl
    obtain ⟨doc, hdoc, rfl⟩ := hl
    exact ⟨doc, hdoc, hw⟩
  · rintro ⟨doc, hdoc, hw⟩
    exact ⟨slidingWindows n doc, List.mem_map_of_mem _ hdoc, hw⟩

/-! ## PyVal lemmas -/

theorem pyUnTuple_pyTuple (l : List String) : pyUnTuple (pyTuple l) = some l := by
  induction l with
  | nil => rfl
  | cons s rest ih =>
    show pyUnTuple (PyVal.tupCons (PyVal.str s) (pyTuple rest)) = _
    rw [pyUnTuple, ih]

/-! ## Counter lemmas -/

theorem trainCounter_eq (n : Nat) (corpus : List (List String)) :
    trainCounter n corpus =
      (allWindows n corpus).foldl (fun c w => addCount c (pyTuple w) 1) [] := by
  unfold trainCounter allWindows
  rw [List.foldl_flatten, List.foldl_map]

theorem keys_foldl_addCount (ws : List (List String)) (c0 : List (PyVal × Nat)) (x : PyVal) :
    x ∈ (ws.foldl (fun c w => addCount c (pyTuple w) 1) c0).map Prod.fst ↔
      x ∈ c0.map Prod.fst ∨ ∃ w ∈ ws, x = pyTuple w := by
  induction ws generalizing c0 with
  | nil => simp
  | cons w rest ih =>
    rw [List.foldl_cons, ih, keys_addCount]
    simp only [List.mem_cons]
    constructor
    · rintro ((hc | rfl) | ⟨u, hu, rfl⟩)
      · exact Or.inl hc
      · exact Or.inr ⟨w, Or.inl rfl, rfl⟩
      · exact Or.inr ⟨u, Or.inr hu, rfl⟩
    · rintro (hc | ⟨u, (rfl | hu), rfl⟩)
      · exact Or.inl (Or.inl hc)
      · exact Or.inl (Or.inr rfl)
      · exact Or.inr ⟨u, hu, rfl⟩

theorem keys_nodup_foldl_addCount (ws : List (List String)) (c0 : List (PyVal × Nat))
    (h0 : (c0.map Prod.fst).Nodup) :
    ((ws.foldl (fun c w => addCount c (pyTuple w) 1) c0).map Prod.fst).Nodup := by
  induction ws generalizing c0 with
  | nil => exact h0
  | cons w rest ih => exact ih _ (keys_nodup_addCount c0 (pyTuple w) 1 h0)

theorem values_pos_foldl_addCount (ws : List (List String)) (c0 : List (PyVal × Nat))
    (h0 : ∀ e ∈ c0, 0 < e.2) :
    ∀ e ∈ ws.foldl (fun c w => addCount c (pyTuple w) 1) c0, 0 < e.2 := by
  induction ws generalizing c0 with
  | nil => exact h0
  | cons w rest ih =>
    exact ih _ (values_pos_addCount c0 (pyTuple w) 1 Nat.one_pos h0)

theorem trainCounter_keys {n : Nat} {corpus : List (List String)} {x : PyVal} :
    x ∈ (trainCounter n corpus).map Prod.fst ↔
      ∃ w ∈ allWindows n corpus, x = pyTuple w := by
  rw [trainCounter_eq, keys_foldl_addCount]
  simp

theorem trainCounter_keys_nodup (n : Nat) (corpus : List (List String)) :
    ((trainCounter n corpus).map Prod.fst).Nodup := by
  rw [trainCounter_eq]
  exact keys_nodup_foldl_addCount _ [] List.nodup_nil

theorem trainCounter_values_pos (n : Nat) (corpus : List (List String)) :
    ∀ e ∈ trainCounter n corpus, 0 < e.2 := by
  rw [trainCounter_eq]
  exact values_pos_foldl_addCount _ [] (by simp)

/-! ## Filtered-sum lemmas -/

theorem filteredSum_cons (e : PyVal × Nat) (es : List (PyVal × Nat)) (P : PyVal → Bool) :
    filteredSum (e :: es) P = (if P e.1 then e.2 else 0) + filteredSum es P := by
  unfold filteredSum
  by_cases hp : P e.1 <;> simp [List.filter_cons, hp]

theorem filteredSum_addCount (l : List (PyVal × Nat)) (k : PyVal) (c : Nat)
    (P : PyVal → Bool) :
    filteredSum (addCount l k c) P = filteredSum l P + if P k then c else 0 := by
  induction l with
  | nil =>
    show filteredSum [(k, c)] P = _
    rw [filteredSum_cons]
    simp [filteredSum]
  | cons e rest ih =>
    match e with
    | (k', v) =>
      by_cases hk : k = k'
      · subst hk
        rw [addCount_cons_self, filteredSum_cons, filteredSum_cons]
        by_cases hp : P k <;> simp [hp] <;> omega
      · rw [addCount_cons_ne hk, filteredSum_cons, filteredSum_cons, ih]
        omega

theorem filteredSum_foldl_addCount (ws : List (List String)) (c0 : List (PyVal × Nat))
    (P : PyVal → Bool) :
    filteredSum (ws.foldl (fun c w => addCount c (pyTuple w) 1) c0) P =
      filteredSum c0 P + (ws.filter (fun w => P (pyTuple w))).length := by
  induction ws generalizing c0 with
  | nil => simp
  | cons w rest ih =>
    rw [List.foldl_cons, ih, filteredSum_addCount, List.filter_cons]
    by_cases hp : P (pyTuple w) <;> simp [hp] <;> omega

theorem filteredSum_eq_zero (es : List (PyVal × Nat)) (P : PyVal → Bool)
    (h : ∀ e ∈ es, ¬P e.1 = true) : filteredSum es P = 0 := by
  unfold filteredSum
  rw [List.filter_eq_nil_iff.2 h]
  rfl

theorem filteredSum_eq_lookup_of_nodup (es : List (PyVal × Nat)) (k : PyVal)
    (hnd : (es.map Prod.fst).Nodup) :
    filteredSum es (fun x => decide (x = k)) = (alookup es k).getD 0 := by
  induction es with
  | nil => rfl
  | cons e rest ih =>
    match e with
    | (k', v) =>
      simp only [List.map_cons, List.nodup_cons] at hnd
      rw [filteredSum_cons, alookup]
      by_cases hk : k = k'
      · subst hk
        rw [if_pos rfl]
        rw [filteredSum_eq_zero rest _ (fun e he => ?_)]
        · simp
        · simp only [decide_eq_true_eq]
          intro hek
          exact hnd.1 (hek ▸ List.mem_map_of_mem Prod.fst he)
      · rw [if_neg hk, ih hnd.2]
        have hne : k' ≠ k := fun hx => hk hx.symm
        simp [hne]

/-! ## Conditional-count table lemmas -/

theorem alookup_addToModel (md : List (List String × List (String × Nat)))
    (h' : List String) (w : String) (c : Nat) (h : List String) :
    alookup (addToModel md h' w c) h =
      if h = h' then some (addCount ((alookup md h').getD []) w c) else alookup md h := by
  induction md with
  | nil =>
    show alookup [(h', [(w, c)])] h = _
    rw [alookup]
    by_cases hh : h = h' <;> simp [alookup, hh, addCount]
  | cons e rest ih =>
    match e with
    | (h'', cs) =>
      rw [addToModel]
      by_cases h1 : h' = h''
      · subst h1
        rw [if_pos rfl]
        by_cases hh : h = h'
        · subst hh
          rw [alookup, if_pos rfl, if_pos rfl, alookup, if_pos rfl]
          rfl
        · rw [alookup, if_neg hh, if_neg hh, alookup, if_neg hh]
      · rw [if_neg h1]
        by_cases h2 : h = h''
        · have hne : ¬h = h' := fun hx => h1 (by rw [← hx, h2])
          simp [alookup, h2, hne]
          rw [if_neg (fun hx : h'' = h' => h1 hx.symm)]
        · simp [alookup, h2, ih, h1]

theorem modelCount_addToModel (md : List (List String × List (String × Nat)))
    (h' : List String) (w' : String) (c : Nat) (h : List String) (w : String) :
    modelCount (addToModel md h' w' c) h w =
      modelCount md h w + if h = h' ∧ w = w' then c else 0 := by
  unfold modelCount countOf
  rw [alookup_addToModel]
  by_cases hh : h = h'
  · rw [if_pos hh]
    subst hh
    show (alookup (addCount ((alookup md h).getD []) w' c) w).getD 0 = _
    rw [lookupCount_addCount]
    by_cases hw : w = w' <;> simp [hw]
  · rw [if_neg hh]
    simp [hh]

theorem historyTotal_addToModel (md : List (List String × List (String × Nat)))
    (h' : List String) (w' : String) (c : Nat) (h : List String) :
    historyTotal (addToModel md h' w' c) h =
      historyTotal md h + if h = h' then c else 0 := by
  unfold historyTotal
  rw [alookup_addToModel]
  by_cases hh : h = h'
  · rw [if_pos hh, if_pos hh]
    subst hh
    show totalCount (addCount ((alookup md h).getD []) w' c) = _
    rw [totalCount_addCount]
  · rw [if_neg hh, if_neg hh]
    simp

theorem pyTuple_of_pyUnTuple : ∀ {k : PyVal} {g : List String},
    pyUnTuple k = some g → pyTuple g = k := by
  intro k
  induction k with
  | str s => intro g hg; simp [pyUnTuple] at hg
  | tupNil =>
    intro g hg
    rw [pyUnTuple] at hg
    cases hg
    rfl
  | tupCons hd tl ihh iht =>
    intro g hg
    cases hd with
    | str s =>
      rw [pyUnTuple] at hg
      cases htl : pyUnTuple tl with
      | none => rw [htl] at hg; cases hg
      | some r =>
        rw [htl] at hg
        cases hg
        show PyVal.tupCons (PyVal.str s) (pyTuple r) = _
        rw [iht htl]
    | tupNil => simp [pyUnTuple] at hg
    | tupCons a b => simp [pyUnTuple] at hg

theorem concat_of_getLast? {l : List String} {w : String} (hl : l.getLast? = some w) :
    l.dropLast ++ [w] = l := by
  induction l using List.reverseRecOn with
  | nil => simp at hl
  | append_singleton rest a ih =>
    rw [List.getLast?_concat] at hl
    cases hl
    rw [List.dropLast_concat]

theorem modelCount_foldl_buildStep (es : List (PyVal × Nat))
    (md0 : List (List String × List (String × Nat))) (g : List String) (w : String) :
    modelCount (es.foldl buildStep md0) g w =
      modelCount md0 g w + filteredSum es (fun k => decide (k = pyTuple (g ++ [w]))) := by
  induction es generalizing md0 with
  | nil => simp [filteredSum]
  | cons e rest ih =>
    match e with
    | (k, c) =>
      rw [List.foldl_cons, ih, filteredSum_cons]
      have hstep : modelCount (buildStep md0 (k, c)) g w =
          modelCount md0 g w + if k = pyTuple (g ++ [w]) then c else 0 := by
        by_cases hk : k = pyTuple (g ++ [w])
        · subst hk
          rw [if_pos rfl]
          unfold buildStep
          simp only [pyUnTuple_pyTuple, List.getLast?_concat, List.dropLast_concat]
          rw [modelCount_addToModel]
          simp
        · rw [if_neg hk]
          unfold buildStep
          cases hun : pyUnTuple k with
          | none => rfl
          | some g' =>
            simp only []
            cases hlast : g'.getLast? with
            | none => rfl
            | some w' =>
              simp only []
              rw [modelCount_addToModel]
              rw [if_neg ?_, Nat.add_zero]
              rintro ⟨rfl, rfl⟩
              exact hk ((concat_of_getLast? hlast) ▸ (pyTuple_of_pyUnTuple hun)).symm
      rw [hstep]
      by_cases hk : k = pyTuple (g ++ [w]) <;> simp [hk] <;> omega

theorem historyTotal_foldl_buildStep (es : List (PyVal × Nat))
    (md0 : List (List String × List (String × Nat))) (h : List String) :
    historyTotal (es.foldl buildStep md0) h =
      historyTotal md0 h + filteredSum es (histKey h) := by
  induction es generalizing md0 with
  | nil => simp [filteredSum]
  | cons e rest ih =>
    match e with
    | (k, c) =>
      rw [List.foldl_cons, ih, filteredSum_cons]
      have hstep : historyTotal (buildStep md0 (k, c)) h =
          historyTotal md0 h + if histKey h k then c else 0 := by
        cases hun : pyUnTuple k with
        | none =>
          have hhk : histKey h k = false := by unfold histKey; rw [hun]
          unfold buildStep
          rw [hun, hhk]
          simp
        | some g' =>
          unfold buildStep
          rw [hun]
          cases hlast : g'.getLast? with
          | none =>
            have hhk : histKey h k = false := by unfold histKey; rw [hun]; simp [hlast]
            rw [hhk]
            simp [hlast]
          | some w' =>
            have hhk : histKey h k = decide (g'.dropLast = h) := by
              unfold histKey; rw [hun]; simp [hlast]
            rw [hhk]
            simp only []
            rw [hlast]
            simp only []
            rw [historyTotal_addToModel]
            by_cases hd : g'.dropLast = h
            · rw [if_pos hd.symm]
              simp [hd]
            · rw [if_neg (fun hx : h = g'.dropLast => hd hx.symm)]
              simp [hd]
      rw [hstep]
      by_cases hk : histKey h k <;> simp [hk] <;> omega

/-! ## Trained-model field lemmas -/

theorem train_ngram_counter (name : String) (n : Nat) (sm bo : Bool)
    (corpus : List (List String)) :
    (train name n sm bo corpus).ngram_counter = trainCounter n corpus := rfl

theorem train_model_eq (name : String) (n : Nat) (sm bo : Bool)
    (corpus : List (List String)) :
    (train name n sm bo corpus).model = buildModel (trainCounter n corpus) := rfl

theorem train_vocab_eq (name : String) (n : Nat) (sm bo : Bool)
    (corpus : List (List String)) :
    (train name n sm bo corpus).vocab = trainVocab corpus := rfl

/-- C8: after a single call to `train`, every n-gram `(g..., w)` carrying
count `c` in the raw counter has `conditionalCounts[g][w] = c`, and for
every history `h` the values stored under `h` sum to the number of
training n-gram windows whose history is `h`. -/
theorem C8_conditional_counts_invariant (name : String) (n : Nat) (sm bo : Bool)
    (corpus : List (List String)) (hn : 1 ≤ n) :
    (∀ (g : List String) (w : String) (c : Nat),
        alookup (train name n sm bo corpus).ngram_counter (pyTuple (g ++ [w])) = some c →
        modelCount (train name n sm bo corpus).model g w = c)
    ∧ (∀ h : List String,
        historyTotal (train name n sm bo corpus).model h = historyWindowCount n corpus h) := by
  constructor
  · intro g w c hc
    rw [train_ngram_counter] at hc
    rw [train_model_eq]
    unfold buildModel
    rw [modelCount_foldl_buildStep,
      filteredSum_eq_lookup_of_nodup _ _ (trainCounter_keys_nodup n corpus), hc]
    simp [modelCount, countOf, alookup]
  · intro h
    rw [train_model_eq]
    unfold buildModel
    rw [historyTotal_foldl_buildStep, trainCounter_eq, filteredSum_foldl_addCount]
    have hlen : ∀ w ∈ allWindows n corpus, w.length = n := by
      intro w hw
      rw [mem_allWindows] at hw
      obtain ⟨doc, _, hwd⟩ := hw
      exact length_of_mem_slidingWindows hwd
    have hfeq : ∀ w ∈ allWindows n corpus, histKey h (pyTuple w) = (w.dropLast == h) := by
      intro w hw
      have hne : w ≠ [] := by
        intro hnil
        have hl := hlen w hw
        rw [hnil] at hl
        simp at hl
        omega
      unfold histKey
      rw [pyUnTuple_pyTuple]
      simp only []
      cases hx : w.getLast? with
      | none =>
        rw [List.getLast?_eq_none_iff] at hx
        exact absurd hx hne
      | some a =>
        simp only []
        by_cases hd : w.dropLast = h <;> simp [hd]
    unfold historyWindowCount
    rw [List.filter_congr hfeq]
    simp [historyTotal, alookup, totalCount, filteredSum]

/-- Witness for C8 at the concrete bigram training of the fixed corpus. -/
theorem C8_conditional_counts_invariant_witness :
    1 ≤ 2
    ∧ ((∀ (g : List String) (w : String) (c : Nat),
          alookup (train "bi" 2 true false corpusTwoDocs).ngram_counter
            (pyTuple (g ++ [w])) = some c →
          modelCount (train "bi" 2 true false corpusTwoDocs).model g w = c)
        ∧ (∀ h : List String,
            historyTotal (train "bi" 2 true false corpusTwoDocs).model h =
              historyWindowCount 2 corpusTwoDocs h)) :=
  ⟨by decide, C8_conditional_counts_invariant "bi" 2 true false corpusTwoDocs (by decide)⟩

/-! ## Distribution case lemmas -/

theorem cpd_seen_smooth (m : NgramModel) {h : List String} {counts : List (String × Nat)}
    (hm : alookup m.model h = some counts) (hsm : m.use_smoothing = true) :
    conditional_probability_distribution m h =
      m.vocab.map (fun w =>
        (w, ((countOf counts w : ℚ) + 1) / ((totalCount counts : ℚ) + m.vocab.length))) := by
  cases m with
  | mk nm n sm bo cnt md vc bms =>
    simp only [NgramModel.model] at hm
    simp only [NgramModel.use_smoothing] at hsm
    subst hsm
    cases bo <;> cases bms <;> simp [conditional_probability_distribution, hm,
      NgramModel.vocab]

theorem cpd_seen_mle (m : NgramModel) {h : List String} {counts : List (String × Nat)}
    (hm : alookup m.model h = some counts) (hsm : m.use_smoothing = false) :
    conditional_probability_distribution m h =
      counts.map (fun e => (e.1, (e.2 : ℚ) / (totalCount counts : ℚ))) := by
  cases m with
  | mk nm n sm bo cnt md vc bms =>
    simp only [NgramModel.model] at hm
    simp only [NgramModel.use_smoothing] at hsm
    subst hsm
    cases bo <;> cases bms <;> simp [conditional_probability_distribution, hm]

theorem cpd_unseen_uniform (m : NgramModel) {h : List String}
    (hm : alookup m.model h = none)
    (hnb : m.use_stupid_backoff = false ∨ m.backoff_models = []) :
    conditional_probability_distribution m h =
      m.vocab.map (fun w => (w, 1 / (m.vocab.length : ℚ))) := by
  cases m with
  | mk nm n sm bo cnt md vc bms =>
    simp only [NgramModel.model] at hm
    simp only [NgramModel.use_stupid_backoff, NgramModel.backoff_models] at hnb
    rcases hnb with hnb | hnb
    · subst hnb
      cases bms <;> simp [conditional_probability_distribution, hm, NgramModel.vocab]
    · subst hnb
      cases bo <;> simp [conditional_probability_distribution, hm, NgramModel.vocab]

theorem cpd_backoff (m : NgramModel) {h : List String}
    (hmiss : alookup m.model h = none) (hbo : m.use_stupid_backoff = true)
    {b : NgramModel} {rest : List NgramModel} (hchain : m.backoff_models = b :: rest) :
    conditional_probability_distribution m h =
      (conditional_probability_distribution b (h.drop 1)).map
        (fun e => (e.1, e.2 * BACKOFF_ALPHA)) := by
  cases m with
  | mk nm n sm bo cnt md vc bms =>
    simp only [NgramModel.model] at hmiss
    simp only [NgramModel.use_stupid_backoff] at hbo
    simp only [NgramModel.backoff_models] at hchain
    subst hbo
    subst hchain
    simp [conditional_probability_distribution, hmiss]

/-! ## Summation lemmas -/

theorem sumDist_map_pair {α : Type} (l : List α) (f : α → String) (g : α → ℚ) :
    sumDist (l.map fun x => (f x, g x)) = (l.map g).sum := by
  simp only [sumDist, List.map_map]
  exact congrArg List.sum (List.map_congr_left fun x _ => rfl)

theorem list_sum_map_div {α : Type} (l : List α) (f : α → ℚ) (c : ℚ) :
    (l.map fun x => f x / c).sum = (l.map f).sum / c := by
  induction l with
  | nil => simp
  | cons a t ih => simp [ih, add_div]

theorem list_sum_map_mul {α : Type} (l : List α) (f : α → ℚ) (c : ℚ) :
    (l.map fun x => f x * c).sum = (l.map f).sum * c := by
  induction l with
  | nil => simp
  | cons a t ih => simp [ih, add_mul]

theorem list_sum_map_add_one {α : Type} (l : List α) (f : α → ℚ) :
    (l.map fun x => f x + 1).sum = (l.map f).sum + l.length := by
  induction l with
  | nil => simp
  | cons a t ih =>
    simp only [List.map_cons, List.sum_cons, ih, List.length_cons]
    push_cast
    ring

theorem list_sum_map_const {α : Type} (l : List α) (c : ℚ) :
    (l.map fun _ => c).sum = l.length * c := by
  induction l with
  | nil => simp
  | cons a t ih =>
    simp only [List.map_cons, List.sum_cons, ih, List.length_cons]
    push_cast
    ring

theorem sum_map_ite_nat (vocab : List String) (k : String) (v : Nat) (f : String → Nat)
    (hnd : vocab.Nodup) (hk : k ∈ vocab) (hfk : f k = 0) :
    (vocab.map fun w => if w = k then v else f w).sum = v + (vocab.map f).sum := by
  induction vocab with
  | nil => cases hk
  | cons a rest ih =>
    rw [List.nodup_cons] at hnd
    rcases List.mem_cons.1 hk with hka | hk'
    · subst hka
      simp only [List.map_cons, List.sum_cons]
      have hrest : rest.map (fun w => if w = k then v else f w) = rest.map f :=
        List.map_congr_left (fun x hx => if_neg (fun hxk : x = k => hnd.1 (hxk ▸ hx)))
      rw [hrest, hfk]
      simp
    · have hak : ¬a = k := fun hx => hnd.1 (hx ▸ hk')
      simp only [List.map_cons, List.sum_cons, if_neg hak]
      rw [ih hnd.2 hk']
      omega

theorem sum_countOf_nat (vocab : List String) (counts : List (String × Nat))
    (hvnd : vocab.Nodup) (hknd : (counts.map Prod.fst).Nodup)
    (hsub : ∀ e ∈ counts, e.1 ∈ vocab) :
    (vocab.map (countOf counts)).sum = totalCount counts := by
  induction counts with
  | nil =>
    have hzero : vocab.map (countOf []) = vocab.map (fun _ => 0) :=
      List.map_congr_left (fun x _ => rfl)
    rw [hzero]
    simp [totalCount]
  | cons e rest ih =>
    match e with
    | (k, v) =>
      simp only [List.map_cons, List.nodup_cons] at hknd
      have hcons : vocab.map (countOf ((k, v) :: rest)) =
          vocab.map (fun w => if w = k then v else countOf rest w) :=
        List.map_congr_left (fun x _ => by
          show (alookup ((k, v) :: rest) x).getD 0 = _
          rw [alookup]
          by_cases hx : x = k <;> simp [hx, countOf])
      rw [hcons]
      have hrk : countOf rest k = 0 := by
        unfold countOf
        rw [alookup_eq_none hknd.1]
        rfl
      rw [sum_map_ite_nat vocab k v (countOf rest) hvnd
        (hsub (k, v) (List.mem_cons_self _ _)) hrk]
      rw [ih hknd.2 (fun e he => hsub e (List.mem_cons_of_mem _ he))]
      simp [totalCount]

theorem sum_countOf_rat (vocab : List String) (counts : List (String × Nat))
    (hvnd : vocab.Nodup) (hknd : (counts.map Prod.fst).Nodup)
    (hsub : ∀ e ∈ counts, e.1 ∈ vocab) :
    (vocab.map fun w => (countOf counts w : ℚ)).sum = (totalCount counts : ℚ) := by
  rw [← sum_countOf_nat vocab counts hvnd hknd hsub, Nat.cast_list_sum, List.map_map]
  rfl

theorem totalCount_pos (counts : List (String × Nat)) (hne : counts ≠ [])
    (hpos : ∀ x ∈ counts, 0 < x.2) : 0 < totalCount counts := by
  cases counts with
  | nil => exact absurd rfl hne
  | cons e rest =>
    have he := hpos e (List.mem_cons_self _ _)
    simp only [totalCount, List.map_cons, List.sum_cons]
    omega

theorem sum_smooth_one (vocab : List String) (counts : List (String × Nat))
    (hv : vocab ≠ []) (hvnd : vocab.Nodup) (hknd : (counts.map Prod.fst).Nodup)
    (hsub : ∀ e ∈ counts, e.1 ∈ vocab) :
    sumDist (vocab.map fun w =>
      (w, ((countOf counts w : ℚ) + 1) / ((totalCount counts : ℚ) + vocab.length))) = 1 := by
  rw [sumDist_map_pair, list_sum_map_div, list_sum_map_add_one,
    sum_countOf_rat vocab counts hvnd hknd hsub]
  have hden : (0 : ℚ) < (totalCount counts : ℚ) + vocab.length := by
    have h1 : (0 : ℚ) ≤ (totalCount counts : ℚ) := Nat.cast_nonneg _
    have h2 : (0 : ℚ) < (vocab.length : ℚ) := by
      rw [Nat.cast_pos]
      exact List.length_pos.2 hv
    linarith
  exact div_self (ne_of_gt hden)

/-! ## Well-formedness of the built conditional counts -/

theorem addToModel_WF (vocab : List String) (md : List (List String × List (String × Nat)))
    (h' : List String) (w' : String) (c : Nat)
    (h0 : ∀ e ∈ md, (e.2.map Prod.fst).Nodup ∧ e.2 ≠ [] ∧
      ∀ x ∈ e.2, x.1 ∈ vocab ∧ 0 < x.2)
    (hw : w' ∈ vocab) (hc : 0 < c) :
    ∀ e ∈ addToModel md h' w' c, (e.2.map Prod.fst).Nodup ∧ e.2 ≠ [] ∧
      ∀ x ∈ e.2, x.1 ∈ vocab ∧ 0 < x.2 := by
  induction md with
  | nil =>
    intro e he
    rw [show addToModel [] h' w' c = [(h', [(w', c)])] from rfl,
      List.mem_singleton] at he
    subst he
    refine ⟨by simp, by simp, ?_⟩
    intro x hx
    rw [List.mem_singleton] at hx
    subst hx
    exact ⟨hw, hc⟩
  | cons e0 rest ih =>
    match e0 with
    | (h'', cs) =>
      intro e he
      rw [addToModel] at he
      have hhead := h0 (h'', cs) (List.mem_cons_self _ _)
      have htail : ∀ e ∈ rest, (e.2.map Prod.fst).Nodup ∧ e.2 ≠ [] ∧
          ∀ x ∈ e.2, x.1 ∈ vocab ∧ 0 < x.2 :=
        fun e he => h0 e (List.mem_cons_of_mem _ he)
      by_cases h1 : h' = h''
      · rw [if_pos h1] at he
        rcases List.mem_cons.1 he with he | he
        · subst he
          refine ⟨keys_nodup_addCount cs w' c hhead.1, addCount_ne_nil cs w' c, ?_⟩
          intro x hx
          refine ⟨?_, values_pos_addCount cs w' c hc (fun y hy => (hhead.2.2 y hy).2) x hx⟩
          have hxk : x.1 ∈ (addCount cs w' c).map Prod.fst := List.mem_map_of_mem Prod.fst hx
          rw [keys_addCount] at hxk
          rcases hxk with hxk | hxk
          · obtain ⟨y, hy, hyx⟩ := List.mem_map.1 hxk
            exact hyx ▸ (hhead.2.2 y hy).1
          · exact hxk ▸ hw
        · exact htail e he
      · rw [if_neg h1] at he
        rcases List.mem_cons.1 he with he | he
        · subst he
          exact hhead
        · exact ih htail e he

theorem foldl_buildStep_WF (vocab : List String) (es : List (PyVal × Nat))
    (md0 : List (List String × List (String × Nat)))
    (h0 : ∀ e ∈ md0, (e.2.map Prod.fst).Nodup ∧ e.2 ≠ [] ∧
      ∀ x ∈ e.2, x.1 ∈ vocab ∧ 0 < x.2)
    (hes : ∀ e ∈ es, 0 < e.2 ∧ ∀ g, pyUnTuple e.1 = some g → ∀ x ∈ g, x ∈ vocab) :
    ∀ e ∈ es.foldl buildStep md0, (e.2.map Prod.fst).Nodup ∧ e.2 ≠ [] ∧
      ∀ x ∈ e.2, x.1 ∈ vocab ∧ 0 < x.2 := by
  induction es generalizing md0 with
  | nil => exact h0
  | cons e0 rest ih =>
    match e0 with
    | (k, c) =>
      rw [List.foldl_cons]
      have hfacts := hes (k, c) (List.mem_cons_self _ _)
      have htail : ∀ e ∈ rest, 0 < e.2 ∧ ∀ g, pyUnTuple e.1 = some g → ∀ x ∈ g, x ∈ vocab :=
        fun e he => hes e (List.mem_cons_of_mem _ he)
      refine ih (buildStep md0 (k, c)) ?_ htail
      unfold buildStep
      cases hun : pyUnTuple k with
      | none => exact h0
      | some g =>
        simp only []
        cases hlast : g.getLast? with
        | none => exact h0
        | some w' =>
          simp only []
          refine addToModel_WF vocab md0 g.dropLast w' c h0 ?_ hfacts.1
          have hwg : w' ∈ g := by
            have hcat := concat_of_getLast? hlast
            rw [← hcat]
            exact List.mem_append_right _ (List.mem_singleton.2 rfl)
          exact hfacts.2 g hun w' hwg

theorem buildModel_WF (n : Nat) (corpus : List (List String)) :
    ∀ e ∈ buildModel (trainCounter n corpus),
      (e.2.map Prod.fst).Nodup ∧ e.2 ≠ [] ∧
      ∀ x ∈ e.2, x.1 ∈ trainVocab corpus ∧ 0 < x.2 := by
  unfold buildModel
  refine foldl_buildStep_WF (trainVocab corpus) (trainCounter n corpus) [] (by simp) ?_
  intro e he
  refine ⟨trainCounter_values_pos n corpus e he, ?_⟩
  intro g hg x hx
  have hkey : e.1 ∈ (trainCounter n corpus).map Prod.fst := List.mem_map_of_mem Prod.fst he
  rw [trainCounter_keys] at hkey
  obtain ⟨w, hw, hew⟩ := hkey
  have hgw : g = w := by
    rw [hew, pyUnTuple_pyTuple] at hg
    cases hg
    rfl
  subst hgw
  rw [mem_allWindows] at hw
  obtain ⟨doc, hdoc, hwd⟩ := hw
  rw [mem_trainVocab]
  exact ⟨doc, hdoc, mem_of_mem_slidingWindows hwd x hx⟩

/-! ## Total mass and nonnegativity of base-case distributions -/

theorem cpd_sum_one (m : NgramModel) (hv : m.vocab ≠ []) (hnd : m.vocab.Nodup)
    (hWF : ∀ e ∈ m.model, (e.2.map Prod.fst).Nodup ∧ e.2 ≠ [] ∧
      ∀ x ∈ e.2, x.1 ∈ m.vocab ∧ 0 < x.2)
    (hbase : m.use_stupid_backoff = false ∨ m.backoff_models = [])
    (h : List String) :
    sumDist (conditional_probability_distribution m h) = 1 := by
  cases hmx : alookup m.model h with
  | some counts =>
    have hfacts := hWF (h, counts) (alookup_mem hmx)
    cases hsm : m.use_smoothing with
    | true =>
      rw [cpd_seen_smooth m hmx hsm]
      exact sum_smooth_one m.vocab counts hv hnd hfacts.1 (fun e he => (hfacts.2.2 e he).1)
    | false =>
      rw [cpd_seen_mle m hmx hsm]
      have hcast : (counts.map fun e => ((e.2 : ℚ))).sum = (totalCount counts : ℚ) := by
        rw [totalCount, Nat.cast_list_sum, List.map_map]
        rfl
      have hpair : sumDist (counts.map fun e =>
          (e.1, (e.2 : ℚ) / (totalCount counts : ℚ))) =
          (counts.map fun e => (e.2 : ℚ) / (totalCount counts : ℚ)).sum :=
        sumDist_map_pair counts _ _
      rw [hpair, list_sum_map_div, hcast]
      have hpos : 0 < totalCount counts :=
        totalCount_pos counts hfacts.2.1 (fun x hx => (hfacts.2.2 x hx).2)
      have : ((totalCount counts : ℚ)) ≠ 0 := by
        rw [Nat.cast_ne_zero]
        omega
      exact div_self this
  | none =>
    rw [cpd_unseen_uniform m hmx hbase]
    rw [sumDist_map_pair, list_sum_map_const]
    have hlen : ((m.vocab.length : ℚ)) ≠ 0 := by
      rw [Nat.cast_ne_zero]
      exact fun hz => hv (List.length_eq_zero.1 hz)
    rw [mul_one_div]
    exact div_self hlen

theorem cpd_nonneg_base (m : NgramModel)
    (hbase : m.use_stupid_backoff = false ∨ m.backoff_models = [])
    (h : List String) : ∀ x ∈ conditional_probability_distribution m h, 0 ≤ x.2 := by
  cases hmx : alookup m.model h with
  | some counts =>
    cases hsm : m.use_smoothing with
    | true =>
      rw [cpd_seen_smooth m hmx hsm]
      intro x hx
      obtain ⟨w, _, rfl⟩ := List.mem_map.1 hx
      refine div_nonneg ?_ ?_
      · positivity
      · positivity
    | false =>
      rw [cpd_seen_mle m hmx hsm]
      intro x hx
      obtain ⟨e, _, rfl⟩ := List.mem_map.1 hx
      exact div_nonneg (Nat.cast_nonneg _) (Nat.cast_nonneg _)
  | none =>
    rw [cpd_unseen_uniform m hmx hbase]
    intro x hx
    obtain ⟨w, _, rfl⟩ := List.mem_map.1 hx
    positivity

/-- Every member of a trained model's backoff chain is itself a model
trained on the same corpus, one order down, with backoff disabled. -/
theorem train_chain_mem {name : String} {n : Nat} {sm bo : Bool}
    {corpus : List (List String)} {b : NgramModel}
    (hb : b ∈ (train name n sm bo corpus).backoff_models) :
    ∃ (k : Nat) (nm : String), b = trainOne nm k sm false corpus := by
  simp only [train, NgramModel.backoff_models] at hb
  by_cases hcond : (bo && decide (1 < n)) = true
  · rw [if_pos hcond, List.mem_map] at hb
    obtain ⟨k, _, rfl⟩ := hb
    exact ⟨k, _, rfl⟩
  · rw [if_neg hcond] at hb
    exact absurd hb (List.not_mem_nil b)

/-- C4: for a trained model with nonempty vocabulary and any history:
when the history is seen and smoothing is on, the distribution covers the
whole vocabulary and sums to exactly 1; when the history is unseen and no
backoff applies, the uniform distribution sums to 1; when backoff applies,
every entry is nonnegative and the total mass equals `BACKOFF_ALPHA`
times the first backoff model's total mass, which is strictly below 1. -/
theorem C4_distribution_mass (name : String) (n : Nat) (sm bo : Bool)
    (corpus : List (List String)) (hv : (train name n sm bo corpus).vocab ≠ [])
    (h : List String) :
    (∀ counts, alookup (train name n sm bo corpus).model h = some counts →
        (train name n sm bo corpus).use_smoothing = true →
        ((conditional_probability_distribution (train name n sm bo corpus) h).map
            Prod.fst = (train name n sm bo corpus).vocab
          ∧ sumDist (conditional_probability_distribution
              (train name n sm bo corpus) h) = 1))
    ∧ (alookup (train name n sm bo corpus).model h = none →
        ((train name n sm bo corpus).use_stupid_backoff = false ∨
          (train name n sm bo corpus).backoff_models = []) →
        sumDist (conditional_probability_distribution (train name n sm bo corpus) h) = 1)
    ∧ (∀ (b : NgramModel) (rest : List NgramModel),
        alookup (train name n sm bo corpus).model h = none →
        (train name n sm bo corpus).use_stupid_backoff = true →
        (train name n sm bo corpus).backoff_models = b :: rest →
        ((∀ x ∈ conditional_probability_distribution (train name n sm bo corpus) h,
            0 ≤ x.2)
          ∧ sumDist (conditional_probability_distribution (train name n sm bo corpus) h) =
              BACKOFF_ALPHA *
                sumDist (conditional_probability_distribution b (h.drop 1))
          ∧ sumDist (conditional_probability_distribution
              (train name n sm bo corpus) h) < 1)) := by
  have hvt : trainVocab corpus ≠ [] := by rwa [train_vocab_eq] at hv
  have hnd : (train name n sm bo corpus).vocab.Nodup := by
    rw [train_vocab_eq]
    exact trainVocab_nodup corpus
  have hWF : ∀ e ∈ (train name n sm bo corpus).model,
      (e.2.map Prod.fst).Nodup ∧ e.2 ≠ [] ∧
      ∀ x ∈ e.2, x.1 ∈ (train name n sm bo corpus).vocab ∧ 0 < x.2 := by
    rw [train_model_eq, train_vocab_eq]
    exact buildModel_WF n corpus
  refine ⟨?_, ?_, ?_⟩
  · intro counts hmx hsm
    have hfacts := hWF (h, counts) (alookup_mem hmx)
    constructor
    · rw [cpd_seen_smooth _ hmx hsm, List.map_map]
      exact List.map_congr_left (fun x _ => rfl) |>.trans (List.map_id _)
    · rw [cpd_seen_smooth _ hmx hsm]
      exact sum_smooth_one _ counts hv hnd hfacts.1 (fun e he => (hfacts.2.2 e he).1)
  · intro hmx hnb
    exact cpd_sum_one _ hv hnd hWF hnb h
  · intro b rest hmx hbo hchain
    have hb : b ∈ (train name n sm bo corpus).backoff_models := by
      rw [hchain]
      exact List.mem_cons_self _ _
    obtain ⟨k, nm, rfl⟩ := train_chain_mem hb
    have hbase : (trainOne nm k sm false corpus).use_stupid_backoff = false ∨
        (trainOne nm k sm false corpus).backoff_models = [] := Or.inl rfl
    have hbsum : sumDist (conditional_probability_distribution
        (trainOne nm k sm false corpus) (h.drop 1)) = 1 := by
      refine cpd_sum_one _ ?_ ?_ ?_ hbase (h.drop 1)
      · exact hvt
      · exact trainVocab_nodup corpus
      · exact buildModel_WF k corpus
    have heq := cpd_backoff (train name n sm bo corpus) hmx hbo hchain
    refine ⟨?_, ?_, ?_⟩
    · rw [heq]
      intro x hx
      obtain ⟨e, he, rfl⟩ := List.mem_map.1 hx
      have he2 := cpd_nonneg_base _ hbase (h.drop 1) e he
      have halpha : (0 : ℚ) ≤ BACKOFF_ALPHA := by norm_num [BACKOFF_ALPHA]
      exact mul_nonneg he2 halpha
    · rw [heq]
      have hscale : sumDist ((conditional_probability_distribution
          (trainOne nm k sm false corpus) (h.drop 1)).map
            (fun e => (e.1, e.2 * BACKOFF_ALPHA))) =
          (((conditional_probability_distribution
            (trainOne nm k sm false corpus) (h.drop 1)).map
              (fun e => e.2 * BACKOFF_ALPHA)).sum) := by
        exact sumDist_map_pair _ _ _
      rw [hscale, list_sum_map_mul]
      rw [mul_comm]
      rfl
    · rw [heq]
      have hscale : sumDist ((conditional_probability_distribution
          (trainOne nm k sm false corpus) (h.drop 1)).map
            (fun e => (e.1, e.2 * BACKOFF_ALPHA))) =
          (((conditional_probability_distribution
            (trainOne nm k sm false corpus) (h.drop 1)).map
              (fun e => e.2 * BACKOFF_ALPHA)).sum) := by
        exact sumDist_map_pair _ _ _
      rw [hscale, list_sum_map_mul]
      have : (((conditional_probability_distribution
          (trainOne nm k sm false corpus) (h.drop 1)).map
            (fun e => e.2)).sum) = 1 := hbsum
      rw [this]
      norm_num [BACKOFF_ALPHA]

/-- Witness for C4 at the trained trigram model and the history
`("the", "cat")`. -/
theorem C4_distribution_mass_witness :
    (train "tri" 3 true true corpusTwoDocs).vocab ≠ []
    ∧ ((∀ counts,
          alookup (train "tri" 3 true true corpusTwoDocs).model ["the", "cat"] =
            some counts →
          (train "tri" 3 true true corpusTwoDocs).use_smoothing = true →
          ((conditional_probability_distribution (train "tri" 3 true true corpusTwoDocs)
              ["the", "cat"]).map Prod.fst = (train "tri" 3 true true corpusTwoDocs).vocab
            ∧ sumDist (conditional_probability_distribution
                (train "tri" 3 true true corpusTwoDocs) ["the", "cat"]) = 1))
        ∧ (alookup (train "tri" 3 true true corpusTwoDocs).model ["the", "cat"] = none →
            ((train "tri" 3 true true corpusTwoDocs).use_stupid_backoff = false ∨
              (train "tri" 3 true true corpusTwoDocs).backoff_models = []) →
            sumDist (conditional_probability_distribution
              (train "tri" 3 true true corpusTwoDocs) ["the", "cat"]) = 1)
        ∧ (∀ (b : NgramModel) (rest : List NgramModel),
            alookup (train "tri" 3 true true corpusTwoDocs).model ["the", "cat"] = none →
            (train "tri" 3 true true corpusTwoDocs).use_stupid_backoff = true →
            (train "tri" 3 true true corpusTwoDocs).backoff_models = b :: rest →
            ((∀ x ∈ conditional_probability_distribution
                (train "tri" 3 true true corpusTwoDocs) ["the", "cat"], 0 ≤ x.2)
              ∧ sumDist (conditional_probability_distribution
                  (train "tri" 3 true true corpusTwoDocs) ["the", "cat"]) =
                  BACKOFF_ALPHA * sumDist (conditional_probability_distribution b
                    (["the", "cat"].drop 1))
              ∧ sumDist (conditional_probability_distribution
                  (train "tri" 3 true true corpusTwoDocs) ["the", "cat"]) < 1))) :=
  ⟨by decide, C4_distribution_mass "tri" 3 true true corpusTwoDocs (by decide) ["the", "cat"]⟩

/-! ## Sorting lemmas for greedy sampling -/

theorem mem_insertDesc {x a : String × ℚ} {s : List (String × ℚ)} :
    x ∈ insertDesc a s ↔ x = a ∨ x ∈ s := by
  induction s with
  | nil => simp [insertDesc]
  | cons y ys ih =>
    rw [insertDesc]
    by_cases hy : y.2 ≤ a.2
    · rw [if_pos hy]
      simp
    · rw [if_neg hy]
      simp only [List.mem_cons, ih]
      tauto

theorem insertDesc_ne_nil (a : String × ℚ) (s : List (String × ℚ)) :
    insertDesc a s ≠ [] := by
  cases s with
  | nil => simp [insertDesc]
  | cons y ys =>
    rw [insertDesc]
    by_cases hy : y.2 ≤ a.2 <;> simp [hy]

theorem sortDesc_ne_nil {l : List (String × ℚ)} (hl : l ≠ []) : sortDesc l ≠ [] := by
  cases l with
  | nil => exact absurd rfl hl
  | cons a t => exact insertDesc_ne_nil a (sortDesc t)

theorem mem_sortDesc {x : String × ℚ} {l : List (String × ℚ)} :
    x ∈ sortDesc l ↔ x ∈ l := by
  induction l with
  | nil => simp [sortDesc]
  | cons a t ih =>
    show x ∈ insertDesc a (sortDesc t) ↔ _
    rw [mem_insertDesc, ih]
    simp

theorem headD_insertDesc_ge (a : String × ℚ) (s : List (String × ℚ)) (d : String × ℚ)
    (hs : ∀ x ∈ s, x.2 ≤ (s.headD d).2) :
    a.2 ≤ ((insertDesc a s).headD d).2 ∧
      ∀ x ∈ s, x.2 ≤ ((insertDesc a s).headD d).2 := by
  cases s with
  | nil => exact ⟨le_refl _, by simp⟩
  | cons y ys =>
    rw [insertDesc]
    by_cases hy : y.2 ≤ a.2
    · rw [if_pos hy]
      refine ⟨le_refl _, ?_⟩
      intro x hx
      exact le_trans (hs x hx) hy
    · rw [if_neg hy]
      exact ⟨le_of_not_le hy, hs⟩

theorem head_sortDesc_max (l : List (String × ℚ)) (d : String × ℚ) :
    ∀ x ∈ l, x.2 ≤ ((sortDesc l).headD d).2 := by
  induction l with
  | nil => simp
  | cons a t ih =>
    intro x hx
    have hrec : ∀ y ∈ sortDesc t, y.2 ≤ ((sortDesc t).headD d).2 :=
      fun y hy => ih y (mem_sortDesc.1 hy)
    have hins := headD_insertDesc_ge a (sortDesc t) d hrec
    rcases List.mem_cons.1 hx with rfl | hx'
    · exact hins.1
    · exact hins.2 x (mem_sortDesc.2 hx')

theorem headD_mem {α : Type} {l : List α} (d : α) (hl : l ≠ []) : l.headD d ∈ l := by
  cases l with
  | nil => exact absurd rfl hl
  | cons a t => exact List.mem_cons_self _ _

/-! ## Nonemptiness of trained distributions -/

theorem cpd_ne_nil_base (m : NgramModel) (hv : m.vocab ≠ [])
    (hne : ∀ e ∈ m.model, e.2 ≠ [])
    (hbase : m.use_stupid_backoff = false ∨ m.backoff_models = [])
    (h : List String) : conditional_probability_distribution m h ≠ [] := by
  cases hmx : alookup m.model h with
  | some counts =>
    cases hsm : m.use_smoothing with
    | true =>
      rw [cpd_seen_smooth m hmx hsm]
      exact fun hc => hv (List.map_eq_nil_iff.1 hc)
    | false =>
      rw [cpd_seen_mle m hmx hsm]
      exact fun hc => hne (h, counts) (alookup_mem hmx) (List.map_eq_nil_iff.1 hc)
  | none =>
    rw [cpd_unseen_uniform m hmx hbase]
    exact fun hc => hv (List.map_eq_nil_iff.1 hc)

theorem cpd_ne_nil_trained (name : String) (n : Nat) (sm bo : Bool)
    (corpus : List (List String)) (hv : (train name n sm bo corpus).vocab ≠ [])
    (h : List String) :
    conditional_probability_distribution (train name n sm bo corpus) h ≠ [] := by
  have hne : ∀ e ∈ (train name n sm bo corpus).model, e.2 ≠ [] := by
    rw [train_model_eq]
    exact fun e he => (buildModel_WF n corpus e he).2.1
  cases hmx : alookup (train name n sm bo corpus).model h with
  | some counts =>
    cases hsm : (train name n sm bo corpus).use_smoothing with
    | true =>
      rw [cpd_seen_smooth _ hmx hsm]
      exact fun hc => hv (List.map_eq_nil_iff.1 hc)
    | false =>
      rw [cpd_seen_mle _ hmx hsm]
      exact fun hc => hne (h, counts) (alookup_mem hmx) (List.map_eq_nil_iff.1 hc)
  | none =>
    cases hbo : (train name n sm bo corpus).use_stupid_backoff with
    | false =>
      rw [cpd_unseen_uniform _ hmx (Or.inl hbo)]
      exact fun hc => hv (List.map_eq_nil_iff.1 hc)
    | true =>
      cases hch : (train name n sm bo corpus).backoff_models with
      | nil =>
        rw [cpd_unseen_uniform _ hmx (Or.inr hch)]
        exact fun hc => hv (List.map_eq_nil_iff.1 hc)
      | cons b rest =>
        rw [cpd_backoff _ hmx hbo hch]
        have hb : b ∈ (train name n sm bo corpus).backoff_models := by
          rw [hch]
          exact List.mem_cons_self _ _
        obtain ⟨k, nm, rfl⟩ := train_chain_mem hb
        have hbne : conditional_probability_distribution
            (trainOne nm k sm false corpus) (h.drop 1) ≠ [] := by
          refine cpd_ne_nil_base (trainOne nm k sm false corpus) ?_ ?_ (Or.inl rfl)
            (h.drop 1)
          · rwa [train_vocab_eq] at hv
          · exact fun e he => (buildModel_WF k corpus e he).2.1
        exact fun hc => hbne (List.map_eq_nil_iff.1 hc)

/-! ## Greedy (top-k = 1) generation lemmas -/

theorem genStep_topk1 (m : NgramModel) (t : ℚ) (tempPow : ℚ → ℚ) (rc : Nat → Nat)
    (rw : Nat → ℚ) (i : Nat) (g : List String)
    (hd : conditional_probability_distribution m (historyOf m.n_gram_size g) ≠ []) :
    genStep m (some 1) none t tempPow rc rw i g = g ++ [greedyNext m g] := by
  have hde : (conditional_probability_distribution m
      (historyOf m.n_gram_size g)).isEmpty = false := by
    cases hc : conditional_probability_distribution m (historyOf m.n_gram_size g) with
    | nil => exact absurd hc hd
    | cons x xs => rfl
  simp only [genStep, hde, Bool.false_eq_true, if_false]
  cases hs : sortDesc (conditional_probability_distribution m
      (historyOf m.n_gram_size g)) with
  | nil => exact absurd hs (sortDesc_ne_nil hd)
  | cons x xs =>
    have htk : truthyNat (some 1) = true := rfl
    have htp : truthyQ (none : Option ℚ) = false := rfl
    rw [htk, htp]
    simp only [if_true, Bool.false_eq_true, if_false, Option.getD_some, List.take_succ_cons,
      List.take_zero, List.map_cons, List.map_nil]
    have hgreedy : greedyNext m g = x.1 := by
      unfold greedyNext topCandidate
      rw [hs]
      rfl
    rw [hgreedy]
    by_cases ht1 : t ≠ 1
    · rw [if_pos ht1]
      rfl
    · rw [if_neg ht1]
      rfl

theorem genTokens_topk1 (m : NgramModel) (t : ℚ) (tempPow : ℚ → ℚ) (rc : Nat → Nat)
    (rw : Nat → ℚ)
    (hall : ∀ g : List String,
      conditional_probability_distribution m (historyOf m.n_gram_size g) ≠ []) :
    ∀ (steps i : Nat) (g : List String),
      genTokens m (some 1) none t tempPow rc rw steps i g = greedySeq m steps g := by
  intro steps
  induction steps with
  | zero => intro i g; rfl
  | succ k ih =>
    intro i g
    show genTokens m (some 1) none t tempPow rc rw k (i + 1)
        (genStep m (some 1) none t tempPow rc rw i g) = _
    rw [genStep_topk1 m t tempPow rc rw i g (hall g), ih]
    rfl

/-- C7: for a trained model with nonempty vocabulary, a provided seed and
any strictly positive temperatures, `generate` with `top_k = 1` returns the
same output for any values of the random sources and of the temperature
exponent, namely the greedy sequence; and the token each greedy step emits
is a candidate of the queried distribution with maximal probability. -/
theorem C7_topk1_deterministic (name : String) (n : Nat) (sm bo : Bool)
    (corpus : List (List String)) (hv : (train name n sm bo corpus).vocab ≠ [])
    (seed : List String) (tokens : Nat) (t₁ t₂ : ℚ) (h₁ : 0 < t₁) (h₂ : 0 < t₂)
    (f₁ f₂ : ℚ → ℚ) (rc₁ rc₂ : Nat → Nat) (rw₁ rw₂ : Nat → ℚ) :
    generate (train name n sm bo corpus) (some seed) tokens (some 1) none t₁ f₁ rc₁ rw₁ =
      generate (train name n sm bo corpus) (some seed) tokens (some 1) none t₂ f₂ rc₂ rw₂
    ∧ generate (train name n sm bo corpus) (some seed) tokens (some 1) none t₁ f₁ rc₁ rw₁ =
        Except.ok (String.intercalate " " (greedySeq (train name n sm bo corpus) tokens seed))
    ∧ (∀ g : List String,
        greedyNext (train name n sm bo corpus) g ∈
          (conditional_probability_distribution (train name n sm bo corpus)
            (historyOf (train name n sm bo corpus).n_gram_size g)).map Prod.fst
        ∧ ∀ x ∈ conditional_probability_distribution (train name n sm bo corpus)
            (historyOf (train name n sm bo corpus).n_gram_size g),
            x.2 ≤ (topCandidate (conditional_probability_distribution
              (train name n sm bo corpus)
              (historyOf (train name n sm bo corpus).n_gram_size g))).2) := by
  have hall : ∀ g : List String,
      conditional_probability_distribution (train name n sm bo corpus)
        (historyOf (train name n sm bo corpus).n_gram_size g) ≠ [] :=
    fun g => cpd_ne_nil_trained name n sm bo corpus hv _
  have hve : (train name n sm bo corpus).vocab.isEmpty = false := by
    cases hc : (train name n sm bo corpus).vocab with
    | nil => exact absurd hc hv
    | cons a l => rfl
  have hgen : ∀ (t : ℚ), 0 < t → ∀ (f : ℚ → ℚ) (rc : Nat → Nat) (rw : Nat → ℚ),
      generate (train name n sm bo corpus) (some seed) tokens (some 1) none t f rc rw =
        Except.ok (String.intercalate " "
          (greedySeq (train name n sm bo corpus) tokens seed)) := by
    intro t ht f rc rw
    unfold generate
    rw [hve]
    have hnt : ¬t ≤ 0 := not_le.2 ht
    simp only [Bool.false_eq_true, if_false, Option.isSome_some, Option.isSome_none,
      Bool.and_false, hnt]
    rw [genTokens_topk1 (train name n sm bo corpus) t f rc rw hall tokens 0 seed]
  refine ⟨?_, hgen t₁ h₁ f₁ rc₁ rw₁, ?_⟩
  · rw [hgen t₁ h₁ f₁ rc₁ rw₁, hgen t₂ h₂ f₂ rc₂ rw₂]
  · intro g
    constructor
    · have hmem : topCandidate (conditional_probability_distribution
          (train name n sm bo corpus)
          (historyOf (train name n sm bo corpus).n_gram_size g)) ∈
          conditional_probability_distribution (train name n sm bo corpus)
            (historyOf (train name n sm bo corpus).n_gram_size g) := by
        unfold topCandidate
        exact mem_sortDesc.1 (headD_mem _ (sortDesc_ne_nil (hall g)))
      exact List.mem_map_of_mem Prod.fst hmem
    · intro x hx
      unfold topCandidate
      exact head_sortDesc_max _ _ x hx

/-- Witness for C7 at the trained bigram model with two different
temperatures, exponent functions, and random sources. -/
theorem C7_topk1_deterministic_witness :
    (train "bi" 2 true false corpusTwoDocs).vocab ≠ []
    ∧ (0 : ℚ) < 1 ∧ (0 : ℚ) < 2
    ∧ (generate (train "bi" 2 true false corpusTwoDocs) (some ["the"]) 2 (some 1) none 1 id
          (fun _ => 0) (fun _ => 0) =
        generate (train "bi" 2 true false corpusTwoDocs) (some ["the"]) 2 (some 1) none 2
          (fun p => p * p) (fun _ => 3) (fun _ => mkRat 1 7)
      ∧ generate (train "bi" 2 true false corpusTwoDocs) (some ["the"]) 2 (some 1) none 1 id
          (fun _ => 0) (fun _ => 0) =
        Except.ok (String.intercalate " "
          (greedySeq (train "bi" 2 true false corpusTwoDocs) 2 ["the"]))
      ∧ (∀ g : List String,
          greedyNext (train "bi" 2 true false corpusTwoDocs) g ∈
            (conditional_probability_distribution (train "bi" 2 true false corpusTwoDocs)
              (historyOf (train "bi" 2 true false corpusTwoDocs).n_gram_size g)).map Prod.fst
          ∧ ∀ x ∈ conditional_probability_distribution
              (train "bi" 2 true false corpusTwoDocs)
              (historyOf (train "bi" 2 true false corpusTwoDocs).n_gram_size g),
              x.2 ≤ (topCandidate (conditional_probability_distribution
                (train "bi" 2 true false corpusTwoDocs)
                (historyOf (train "bi" 2 true false corpusTwoDocs).n_gram_size g))).2)) :=
  ⟨by decide, by norm_num, by norm_num,
    C7_topk1_deterministic "bi" 2 true false corpusTwoDocs (by decide) ["the"] 2 1 2
      (by norm_num) (by norm_num) id (fun p => p * p) (fun _ => 0) (fun _ => 3)
      (fun _ => 0) (fun _ => mkRat 1 7)⟩
